import Mathlib

/-!
Verification of the static-analysis engine of the code-visualizer repository
(`src/lib/analyzer.ts`).  The TypeScript functions are shallowly embedded as
executable Lean definitions: file contents are `String`s, filesystem paths are
lists of path segments (the analyzed project is mounted at the filesystem
root, so project-relative segment lists coincide with absolute paths), and the
handful of regular expressions used by the analyzer are embedded as
deterministic scanners that realize the exact patterns appearing in the
source.
-/

namespace CodeVisualizer

/-- JS `\s` whitespace class members relevant to ASCII source text. -/
def isJsSpace (c : Char) : Bool :=
  c = ' ' || c = '\t' || c = '\n' || c = '\r' || c = '\x0b' || c = '\x0c'

/-- JS `\w` word-character class: `[A-Za-z0-9_]`. -/
def isWordChar (c : Char) : Bool :=
  ('a' ≤ c && c ≤ 'z') || ('A' ≤ c && c ≤ 'Z') || ('0' ≤ c && c ≤ '9') || c = '_'

/-- JS `[A-Z]` class used by the `^[A-Z]` component-name tests. -/
def isAsciiUpper (c : Char) : Bool :=
  'A' ≤ c && c ≤ 'Z'

/-- The single-quote character (U+0027). -/
def squote : Char := Char.ofNat 39

/-- The opening-brace character (U+007B). -/
def lbrace : Char := Char.ofNat 123

/-- The closing-brace character (U+007D). -/
def rbrace : Char := Char.ofNat 125

/-- One character of `replace(/[\/\\]/g, "_")`: path separators become `_`. -/
def sepToUnderscore (c : Char) : Char :=
  if c = '/' ∨ c = '\\' then '_' else c

/-- JS `replace(/\.[^.]+$/, "")` on a character list: drop a trailing
`.<non-dot chars>` extension when one is present (analyzer.ts line 450). -/
def stripLastExtension (s : List Char) : List Char :=
  let r := s.reverse
  let post := r.takeWhile (fun c => c ≠ '.')
  if post.length < r.length ∧ post ≠ [] then (r.drop (post.length + 1)).reverse else s

/-- Node id derivation of `analyzeDependencies` (analyzer.ts line 450):
`relativePath.replace(/[\/\\]/g, "_").replace(/\.[^.]+$/, "")`. -/
def deriveNodeId (rel : String) : String :=
  ⟨stripLastExtension (rel.data.map sepToUnderscore)⟩

/-- JS `path.extname` on a bare file name: the suffix from the last dot,
empty for dotfiles and names without a dot. -/
def extname (s : String) : String :=
  let r := s.data.reverse
  let post := r.takeWhile (fun c => c ≠ '.')
  if post.length + 1 < r.length then ⟨'.' :: post.reverse⟩ else ""

/-- The extension whitelist of the dependency pass (analyzer.ts line 369). -/
def SOURCE_EXTENSIONS : List String := [".ts", ".tsx", ".js", ".jsx"]

/-- Characters that make the node-id derivation collision-prone: underscores
(indistinguishable from replaced separators), backslashes (replaced
separators) and dots (extension stripping). -/
def isCleanPathChar (c : Char) : Bool :=
  c ≠ '_' && c ≠ '\\' && c ≠ '.'

/-- JS `split` with a one-character separator on character lists: splitting
never yields the empty list, and empty fields are kept. -/
def splitOnChar (sep : Char) : List Char → List (List Char)
  | [] => [[]]
  | c :: cs =>
    if c = sep then [] :: splitOnChar sep cs
    else
      match splitOnChar sep cs with
      | [] => [[c]]
      | w :: ws => (c :: w) :: ws

/-- JS `split` with a one-character separator on strings. -/
def splitString (sep : Char) (s : String) : List String :=
  (splitOnChar sep s.data).map (fun l => (⟨l⟩ : String))

/-- Code point of a character — the unit JS string comparison compares (for
the analyzer's ASCII route paths and `\w+` model names this coincides with
UTF-16 code units). -/
def charCode (c : Char) : Nat := c.toNat

/-- JS `<` on strings: lexicographic comparison of code units.  Defined
structurally so that it evaluates inside the kernel. -/
def listCharLt : List Char → List Char → Bool
  | [], [] => false
  | [], _ :: _ => true
  | _ :: _, [] => false
  | a :: as, b :: bs =>
    if charCode a < charCode b then true
    else if charCode b < charCode a then false
    else listCharLt as bs

/-- JS `a < b` on strings. -/
def jsLt (a b : String) : Bool := listCharLt a.data b.data

/-- JS `a <= b` on strings: the non-positive outcomes of the comparison. -/
def jsLe (a b : String) : Bool := !(listCharLt b.data a.data)

/-- The printable ASCII punctuation and symbol characters in CLDR root
collation order — the order `String.prototype.localeCompare` uses with the
default locale: space, then punctuation, then symbols, then the currency
sign, all of which collate before digits, which collate before letters. -/
def punctOrder : List Char :=
  [' ', '_', '-', ',', ';', ':', '!', '?', '.', squote, '"', '(', ')',
   '[', ']', lbrace, rbrace, '@', '*', '/', '\\', '&', '#', '%',
   Char.ofNat 96, '^', '+', '<', '=', '>', '|', '~', '$']

/-- Primary collation weight of a character under the default-locale (root)
collation of `localeCompare`, restricted to printable ASCII: punctuation and
symbols in CLDR root order, then digits, then letters — and a letter weighs
the same in either case, so case differences are invisible at this level and
are decided only by the tertiary weight.  Characters outside printable ASCII
are placed after all modelled ones in code-point order, a coarsening that no
theorem below exercises (every compared character lies in the modelled
range). -/
def primaryRank (c : Char) : Nat :=
  if c.isLower then 200 + (c.toNat - 97)
  else if c.isUpper then 200 + (c.toNat - 65)
  else if c.isDigit then 100 + (c.toNat - 48)
  else match punctOrder.findIdx? (fun d => d = c) with
    | some i => i
    | none => 300 + c.toNat

/-- Tertiary (case) collation weight: with the default `caseFirst` setting a
lowercase letter collates before its uppercase form. -/
def tertiaryRank (c : Char) : Nat := if c.isUpper then 1 else 0

/-- Lexicographic three-way comparison of weight sequences. -/
def lexNat : List Nat → List Nat → Ordering
  | [], [] => .eq
  | [], _ :: _ => .lt
  | _ :: _, [] => .gt
  | a :: as, b :: bs =>
    if a < b then .lt else if b < a then .gt else lexNat as bs

/-- Collation comparison of two character sequences: the full primary weight
sequences are compared first, so a primary difference anywhere in the string
dominates any earlier case difference; a primary tie is broken by the
tertiary (case) weight sequence.  ASCII has no secondary (accent)
differences. -/
def localeCmpList (a b : List Char) : Ordering :=
  match lexNat (a.map primaryRank) (b.map primaryRank) with
  | .eq => lexNat (a.map tertiaryRank) (b.map tertiaryRank)
  | o => o

/-- `a.localeCompare(b)` as a three-way comparison: `.lt`, `.eq`, `.gt`
stand for a negative, zero and positive return value. -/
def localeCompare (a b : String) : Ordering := localeCmpList a.data b.data

/-- Characters on which the root collation provably agrees with code-unit
order: hyphen, dot, slash, digits and lowercase letters — the alphabet of
conventional API route paths. -/
def plainPathChars : List Char := "-./0123456789abcdefghijklmnopqrstuvwxyz".data

/-- Match a literal character sequence at the head of the input, returning the
remaining input on success. -/
def matchLit : List Char → List Char → Option (List Char)
  | [], s => some s
  | _ :: _, [] => none
  | c :: cs, d :: ds => if c = d then matchLit cs ds else none

/-- Regex `\s+`: require at least one JS whitespace character, consume the
maximal run.  Maximal-munch is faithful here because every continuation of the
analyzer's patterns starts with a non-whitespace character. -/
def plusSpaces (s : List Char) : Option (List Char) :=
  match s with
  | [] => none
  | c :: cs => if isJsSpace c then some (cs.dropWhile isJsSpace) else none

/-- Does the predicate match at some suffix of the input?  This realizes an
unanchored regex `test`. -/
def existsMatch (m : List Char → Bool) : List Char → Bool
  | [] => m []
  | c :: cs => m (c :: cs) || existsMatch m cs

/-- Regex fragment `(async\s+)?`: consume `async` plus whitespace when
present.  (Declining a successful `async\s+` can never make the enclosing
pattern succeed, since `function` cannot match at a position starting with
`async`.) -/
def skipAsync (s : List Char) : List Char :=
  match matchLit "async".data s with
  | some s1 =>
    match plusSpaces s1 with
    | some s2 => s2
    | none => s
  | none => s

/-- One position of `export\s+(async\s+)?function\s+METHOD\s*\(`
(analyzer.ts line 47). -/
def matchFnPatAt (method : String) (s : List Char) : Bool :=
  (do
    let s ← matchLit "export".data s
    let s ← plusSpaces s
    let s := skipAsync s
    let s ← matchLit "function".data s
    let s ← plusSpaces s
    let s ← matchLit method.data s
    let s := s.dropWhile isJsSpace
    let _ ← matchLit ['('] s
    pure ()).isSome

/-- One position of `export\s+const\s+METHOD\s*=` (analyzer.ts line 48). -/
def matchConstPatAt (method : String) (s : List Char) : Bool :=
  (do
    let s ← matchLit "export".data s
    let s ← plusSpaces s
    let s ← matchLit "const".data s
    let s ← plusSpaces s
    let s ← matchLit method.data s
    let s := s.dropWhile isJsSpace
    let _ ← matchLit ['='] s
    pure ()).isSome

/-- The five HTTP methods probed by the route extractor (analyzer.ts line 25). -/
def HTTP_METHODS : List String := ["GET", "POST", "PUT", "DELETE", "PATCH"]

/-- `extractMethods` (analyzer.ts lines 43-58): a method is recorded once if
either export pattern matches somewhere in the content. -/
def extractMethods (content : String) : List String :=
  HTTP_METHODS.filter (fun m =>
    existsMatch (matchFnPatAt m) content.data || existsMatch (matchConstPatAt m) content.data)

/-- JS `String.prototype.includes` on character lists. -/
def containsSub (needle hay : List Char) : Bool :=
  existsMatch (fun s => (matchLit needle s).isSome) hay

/-- `extractAuthType` (analyzer.ts lines 60-81): substring heuristics over the
lowercased content, admin cues first, protected cues second, else public. -/
def extractAuthType (content : String) : String :=
  let lower := content.data.map Char.toLower
  let roleAdminSingle := "role === ".data ++ [squote] ++ "admin".data ++ [squote]
  let roleAdminDouble := "role === \"admin\"".data
  if containsSub "requireadmin".data lower || containsSub "isadmin".data lower ||
      containsSub roleAdminSingle lower || containsSub roleAdminDouble lower then "admin"
  else if containsSub "getauthenticateduser".data lower || containsSub "auth.protect".data lower ||
      containsSub "requireauth".data lower || containsSub "getserversession".data lower ||
      containsSub "currentuser".data lower || containsSub "unauthorized".data lower then "protected"
  else "public"

/-- `pathToApiRoute` (analyzer.ts lines 83-90) on the segment list of the
file's project-relative path: slice from the first `api` segment (or the
start) up to but excluding the file name, joined with `/`. -/
def pathToApiRoute (parts : List String) : String :=
  match parts.findIdx? (fun p => p = "api") with
  | some i => "/" ++ String.intercalate "/" ((parts.drop i).dropLast)
  | none => "/" ++ String.intercalate "/" parts.dropLast

/-- `extractFeature` (analyzer.ts lines 92-98). -/
def extractFeature (routePath : String) : String :=
  let parts := (splitString '/' routePath).filter (fun s => s ≠ "")
  match parts with
  | "api" :: second :: _ => second
  | first :: _ => first
  | [] => "root"

/-- `RouteInfo` of types.ts. -/
structure RouteInfo where
  path : String
  method : String
  feature : String
  auth : String
  file : String
deriving DecidableEq, Repr

/-- The records pushed for one route-handler file (analyzer.ts lines 111-127):
one record per detected method, all sharing path, feature, auth and file. -/
def routeRecordsFor (rel : List String) (content : String) : List RouteInfo :=
  (extractMethods content).map (fun m =>
    { path := pathToApiRoute rel, method := m,
      feature := extractFeature (pathToApiRoute rel),
      auth := extractAuthType content,
      file := String.intercalate "/" rel })

/-- The comparator of analyzer.ts lines 134-138 as a relation: the comparator
value is non-positive exactly when the path collates strictly earlier under
`localeCompare`, or the paths collate equal and the method does not collate
strictly later. -/
def routeLE (a b : RouteInfo) : Prop :=
  localeCompare a.path b.path = Ordering.lt ∨
    (localeCompare a.path b.path = Ordering.eq ∧
      localeCompare a.method b.method ≠ Ordering.gt)

instance : DecidableRel routeLE := fun a b =>
  inferInstanceAs (Decidable (localeCompare a.path b.path = Ordering.lt ∨
    (localeCompare a.path b.path = Ordering.eq ∧
      localeCompare a.method b.method ≠ Ordering.gt)))

/-- The ordering in the specification's words, kept separate from the
comparator the code runs (`routeLE`): lexicographic by code units on the
path, ties broken lexicographically by method. -/
def lexRouteLE (a b : RouteInfo) : Prop :=
  jsLt a.path b.path = true ∨ (a.path = b.path ∧ jsLe a.method b.method = true)

instance : DecidableRel lexRouteLE := fun a b =>
  inferInstanceAs (Decidable (jsLt a.path b.path = true ∨
    (a.path = b.path ∧ jsLe a.method b.method = true)))

/-- `analyzeRoutes` (analyzer.ts lines 100-141) over the discovered
route-handler files, given as (relative segment path, content) pairs: emit the
per-file records and sort with the path-then-method comparator. -/
def analyzeRoutesCore (files : List (List String × String)) : List RouteInfo :=
  List.insertionSort routeLE (files.flatMap (fun f => routeRecordsFor f.1 f.2))

/-- `FieldInfo` of types.ts. -/
structure FieldInfo where
  name : String
  type : String
  isRelation : Bool
  isOptional : Bool
  isArray : Bool
deriving DecidableEq, Repr

/-- `ModelInfo` of types.ts. -/
structure ModelInfo where
  name : String
  fields : List FieldInfo
deriving DecidableEq, Repr

/-- `RelationshipInfo` of types.ts; `fromModel`/`toModel` embed the `from`/`to`
fields (`from` is reserved in Lean). -/
structure RelationshipInfo where
  fromModel : String
  toModel : String
  type : String
  fieldName : String
deriving DecidableEq, Repr

/-- JS `String.prototype.trim` over the `\s` class. -/
def jsTrim (s : List Char) : List Char :=
  ((s.dropWhile isJsSpace).reverse.dropWhile isJsSpace).reverse

/-- Split into maximal runs of non-separator characters, the behaviour of JS
`split(/\s+/)` on trimmed input. -/
def wordsByAux (p : Char → Bool) : List Char → List Char → List (List Char)
  | [], acc => if acc.isEmpty then [] else [acc.reverse]
  | c :: cs, acc =>
    if p c then
      if acc.isEmpty then wordsByAux p cs [] else acc.reverse :: wordsByAux p cs []
    else wordsByAux p cs (c :: acc)

/-- JS `trimmed.split(/\s+/)` for trimmed input. -/
def splitWs (s : List Char) : List (List Char) := wordsByAux isJsSpace s []

/-- JS `String.prototype.endsWith` on character lists. -/
def endsWithL (l suf : List Char) : Bool := suf.reverse.isPrefixOf l.reverse

/-- `parseField` (analyzer.ts lines 271-294): trim the line, skip blanks,
comments, `@@` block attributes and `@`-led tokens, read name and type, strip
`[]` then `?` from the type, and mark the field as a relation iff the
stripped type is a declared model name. -/
def parseField (line : String) (modelNames : List String) : Option FieldInfo :=
  let trimmed := jsTrim line.data
  if trimmed.isEmpty then none
  else if "//".data.isPrefixOf trimmed then none
  else if "@@".data.isPrefixOf trimmed then none
  else
    let parts := splitWs trimmed
    if parts.length < 2 then none
    else
      let name := parts.headD []
      let ty0 := (parts.drop 1).headD []
      if name.headD ' ' = '@' then none
      else
        let p1 := if endsWithL ty0 "[]".data then (ty0.take (ty0.length - 2), true)
          else (ty0, false)
        let p2 := if endsWithL p1.1 ['?'] then (p1.1.take (p1.1.length - 1), true)
          else (p1.1, false)
        some { name := ⟨name⟩, type := ⟨p2.1⟩,
               isRelation := modelNames.contains (⟨p2.1⟩ : String),
               isOptional := p2.2, isArray := p1.2 }

/-- Header part shared by the two schema regexes, `^model\s+(\w+)\s*\{`:
returns the captured model name and the input after the opening brace. -/
def matchModelHeader (s : List Char) : Option (List Char × List Char) :=
  (matchLit "model".data s).bind (fun s1 =>
    (plusSpaces s1).bind (fun s2 =>
      let name := s2.takeWhile isWordChar
      if name.isEmpty then none
      else
        let s3 := (s2.drop name.length).dropWhile isJsSpace
        (matchLit [lbrace] s3).map (fun s4 => (name, s4))))

/-- Global multiline scan of `^model\s+(\w+)\s*\{` (analyzer.ts line 300):
collect the model names in order; a match may only start at a line start and
scanning resumes after each match.  The fuel argument is the remaining input
length, strictly larger than every resumption point. -/
def scanModelNamesAux : Nat → List Char → Bool → List String
  | 0, _, _ => []
  | _ + 1, [], _ => []
  | fuel + 1, c :: cs, atStart =>
    if atStart then
      match matchModelHeader (c :: cs) with
      | some (name, rest) => (⟨name⟩ : String) :: scanModelNamesAux fuel rest false
      | none => scanModelNamesAux fuel cs (c = '\n')
    else scanModelNamesAux fuel cs (c = '\n')

/-- Pass 1 of `parseModels`: all declared model names. -/
def scanModelNames (content : String) : List String :=
  scanModelNamesAux content.data.length content.data true

/-- One match of `^model\s+(\w+)\s*\{([^}]+)\}`: the non-empty greedy body
runs up to the next closing brace. -/
def matchModelBlock (s : List Char) : Option (String × String × List Char) :=
  (matchModelHeader s).bind (fun nm =>
    let body := nm.2.takeWhile (fun c => c ≠ rbrace)
    if body.isEmpty then none
    else
      match nm.2.drop body.length with
      | [] => none
      | _ :: rest => some ((⟨nm.1⟩ : String), (⟨body⟩ : String), rest))

/-- Global multiline scan of `^model\s+(\w+)\s*\{([^}]+)\}` (analyzer.ts
line 306): `(name, body)` pairs in match order. -/
def scanModelBlocksAux : Nat → List Char → Bool → List (String × String)
  | 0, _, _ => []
  | _ + 1, [], _ => []
  | fuel + 1, c :: cs, atStart =>
    if atStart then
      match matchModelBlock (c :: cs) with
      | some (name, body, rest) => (name, body) :: scanModelBlocksAux fuel rest false
      | none => scanModelBlocksAux fuel cs (c = '\n')
    else scanModelBlocksAux fuel cs (c = '\n')

/-- `parseModels` (analyzer.ts lines 296-322): two passes — collect all model
names, then parse each model block line by line. -/
def parseModels (content : String) : List ModelInfo × List String :=
  let modelNames := scanModelNames content
  let blocks := scanModelBlocksAux content.data.length content.data true
  (blocks.map (fun b =>
    { name := b.1,
      fields := (splitString '\n' b.2).filterMap (fun line => parseField line modelNames) }),
   modelNames)

/-- JS `[model.name, field.type].sort().join("-")` (analyzer.ts line 331). -/
def sortPairKey (a b : String) : String :=
  if jsLe a b = true then a ++ "-" ++ b else b ++ "-" ++ a

/-- The dedup key a stored relationship contributes to the `seen` set. -/
def relKeyOf (r : RelationshipInfo) : String := sortPairKey r.fromModel r.toModel

/-- The relationship record built for a relation field (analyzer.ts lines
335-342), including the reverse-field cardinality lookup. -/
def mkRelationship (models : List ModelInfo) (m : ModelInfo) (f : FieldInfo) :
    RelationshipInfo :=
  let relType :=
    if f.isArray then
      match (models.find? (fun om => om.name = f.type)).bind
          (fun om => om.fields.find? (fun g => g.type = m.name && g.isRelation)) with
      | some g => if g.isArray then "many-to-many" else "one-to-many"
      | none => "one-to-many"
    else "one-to-one"
  { fromModel := m.name, toModel := f.type, type := relType, fieldName := f.name }

/-- One iteration of the nested loops of `extractRelationships` (analyzer.ts
lines 328-346), threading the `seen` set and the output list. -/
def relStep (models : List ModelInfo) (st : List String × List RelationshipInfo)
    (mf : ModelInfo × FieldInfo) : List String × List RelationshipInfo :=
  if mf.2.isRelation then
    if sortPairKey mf.1.name mf.2.type ∈ st.1 then st
    else (sortPairKey mf.1.name mf.2.type :: st.1, st.2 ++ [mkRelationship models mf.1 mf.2])
  else st

/-- The (model, field) pairs in the visit order of the nested loops. -/
def modelFieldPairs (models : List ModelInfo) : List (ModelInfo × FieldInfo) :=
  models.flatMap (fun m => m.fields.map (fun f => (m, f)))

/-- `extractRelationships` (analyzer.ts lines 324-349). -/
def extractRelationships (models : List ModelInfo) : List RelationshipInfo :=
  ((modelFieldPairs models).foldl (relStep models) ([], [])).2

/-- `analyzeModels` parsing core (analyzer.ts lines 356-358): models plus
relationships of a schema text. -/
def analyzeModelsCore (content : String) : List ModelInfo × List RelationshipInfo :=
  let ms := (parseModels content).1
  (ms, extractRelationships ms)

/-- Invariant of the relationship fold: the `seen` set holds exactly the keys
of the emitted records, and those keys are pairwise distinct. -/
def RelInv (st : List String × List RelationshipInfo) : Prop :=
  (∀ k, k ∈ st.1 ↔ k ∈ st.2.map relKeyOf) ∧ (st.2.map relKeyOf).Nodup

/-- One line-start position of `/^["']use client["'];?\s*$/m` (analyzer.ts
line 174): a quote, the literal directive, a quote, an optional semicolon,
then only whitespace up to the end of the line (a `\s*` run reaching a
newline or the end of input satisfies the `$` anchor). -/
def useClientAt (s : List Char) : Bool :=
  match s with
  | [] => false
  | q :: rest =>
    if q = '"' ∨ q = squote then
      match matchLit "use client".data rest with
      | some (q2 :: rest2) =>
        if q2 = '"' ∨ q2 = squote then
          let rest3 := match rest2 with
            | c :: t => if c = ';' then t else rest2
            | [] => rest2
          (rest3.takeWhile (fun c => c ≠ '\n')).all isJsSpace
        else false
      | _ => false
    else false

/-- Does the matcher succeed at some line-start position? -/
def existsLineStart (m : List Char → Bool) : List Char → Bool → Bool
  | [], atStart => atStart && m []
  | c :: cs, atStart => (atStart && m (c :: cs)) || existsLineStart m cs (c = '\n')

/-- `extractComponentType` (analyzer.ts lines 173-178). -/
def extractComponentType (content : String) : String :=
  if existsLineStart useClientAt content.data true then "client" else "server"

/-- Regex fragment `\{[^}]*\}`: a brace pair with any non-brace content. -/
def matchBraces (s : List Char) : Option (List Char) :=
  match s with
  | c :: cs =>
    if c = lbrace then
      let inner := cs.takeWhile (fun d => d ≠ rbrace)
      match cs.drop inner.length with
      | _ :: rest => some rest
      | [] => none
    else none
  | [] => none

/-- Regex fragment `\s*,\s*\{[^}]*\}` of the dependency-pass import regex. -/
def matchCommaBraces (s : List Char) : Option (List Char) :=
  match s.dropWhile isJsSpace with
  | c :: cs => if c = ',' then matchBraces (cs.dropWhile isJsSpace) else none
  | [] => none

/-- The optional clause `(?:\{[^}]*\}|[\w*]+(…)?)\s+from\s+` of the two import
regexes (analyzer.ts lines 182 and 403); `allowComma` selects the
dependency-pass variant that also accepts `name, \{…\}` clauses. -/
def matchImportClause (allowComma : Bool) (s : List Char) : Option (List Char) :=
  let afterSpec : Option (List Char) :=
    match matchBraces s with
    | some r => some r
    | none =>
      let word := s.takeWhile (fun c => isWordChar c || c = '*')
      if word.isEmpty then none
      else
        let r := s.drop word.length
        if allowComma then
          match matchCommaBraces r with
          | some r2 => some r2
          | none => some r
        else some r
  match afterSpec with
  | none => none
  | some r =>
    (plusSpaces r).bind (fun r1 => (matchLit "from".data r1).bind plusSpaces)

/-- One position of the import regex: `import\s+(clause)?["']([^"']+)["']`,
returning the captured module specifier and the rest of the input. -/
def matchImportAt (allowComma : Bool) (s : List Char) : Option (List Char × List Char) :=
  (matchLit "import".data s).bind (fun s1 =>
    (plusSpaces s1).bind (fun s2 =>
      let s3 := match matchImportClause allowComma s2 with
        | some r => r
        | none => s2
      match s3 with
      | q :: rest =>
        if q = '"' ∨ q = squote then
          let spec := rest.takeWhile (fun c => !(c = '"' || c = squote))
          if spec.isEmpty then none
          else
            match rest.drop spec.length with
            | _ :: rest2 => some (spec, rest2)
            | [] => none
        else none
      | [] => none))

/-- The global import-regex scan: all captured module specifiers in order,
resuming after each full match. -/
def scanImportsAux (allowComma : Bool) : Nat → List Char → List String
  | 0, _ => []
  | _ + 1, [] => []
  | fuel + 1, c :: cs =>
    match matchImportAt allowComma (c :: cs) with
    | some (spec, rest) => (⟨spec⟩ : String) :: scanImportsAux allowComma fuel rest
    | none => scanImportsAux allowComma fuel cs

/-- All module specifiers captured by the import regex over a file. -/
def jsImports (allowComma : Bool) (content : String) : List String :=
  scanImportsAux allowComma content.data.length content.data

/-- The relative-or-alias filter shared by both import extractors:
`importPath.startsWith(".") || importPath.startsWith("@/")`. -/
def startsWithDotOrAlias (spec : String) : Bool :=
  ['.'].isPrefixOf spec.data || "@/".data.isPrefixOf spec.data

/-- `extractDependencies` (analyzer.ts lines 180-196): keep the last path
segment of each relative/alias import when it starts with an uppercase
letter, then deduplicate preserving first occurrences (`[...new Set(deps)]`). -/
def extractDependencies (content : String) : List String :=
  let deps := (jsImports false content).filterMap (fun spec =>
    if startsWithDotOrAlias spec then
      match (splitString '/' spec).getLastD "" with
      | lastPart =>
        match lastPart.data with
        | c :: _ => if isAsciiUpper c then some lastPart else none
        | [] => none
    else none)
  deps.foldl (fun acc x => if x ∈ acc then acc else acc ++ [x]) []

/-- `countLines` (analyzer.ts lines 198-200): `content.split("\n").length`. -/
def countLines (content : String) : Nat := (splitOnChar '\n' content.data).length

/-- `getDirectoryLabel` (analyzer.ts lines 202-205). -/
def getDirectoryLabel (dirPath : String) : String :=
  let lastPart := (splitString '/' dirPath).getLastD ""
  if lastPart = "" then dirPath else lastPart

/-- JS `path.dirname` of a relative segment path. -/
def dirnameOf (rel : List String) : String :=
  if rel.length ≤ 1 then "." else String.intercalate "/" rel.dropLast

/-- JS `path.basename(p, path.extname(p))` of a segment path. -/
def baseNameNoExt (rel : List String) : String :=
  let fname := rel.getLastD ""
  ⟨fname.data.take (fname.data.length - (extname fname).data.length)⟩

/-- `ComponentInfo` of types.ts. -/
structure ComponentInfo where
  name : String
  path : String
  directory : String
  type : String
  dependencies : List String
  linesOfCode : Nat
deriving DecidableEq, Repr

/-- `DirectoryInfo` of types.ts. -/
structure DirectoryInfo where
  path : String
  label : String
  componentCount : Nat
deriving DecidableEq, Repr

/-- The record pushed for one component file (analyzer.ts lines 222-230). -/
def mkComponentInfo (rel : List String) (content : String) : ComponentInfo :=
  { name := baseNameNoExt rel,
    path := String.intercalate "/" rel,
    directory := dirnameOf rel,
    type := extractComponentType content,
    dependencies := extractDependencies content,
    linesOfCode := countLines content }

/-- `directoryMap.set(dirPath, (directoryMap.get(dirPath) || 0) + 1)` on an
insertion-ordered association list (analyzer.ts line 231). -/
def upsertCount (m : List (String × Nat)) (k : String) : List (String × Nat) :=
  if m.any (fun p => p.1 = k) then
    m.map (fun p => if p.1 = k then (p.1, p.2 + 1) else p)
  else m ++ [(k, 1)]

/-- The component comparator (analyzer.ts lines 246-250): `localeCompare` on
the directory first, ties broken by `localeCompare` on the name. -/
def componentLE (a b : ComponentInfo) : Prop :=
  localeCompare a.directory b.directory = Ordering.lt ∨
    (localeCompare a.directory b.directory = Ordering.eq ∧
      localeCompare a.name b.name ≠ Ordering.gt)

instance : DecidableRel componentLE := fun a b =>
  inferInstanceAs (Decidable (localeCompare a.directory b.directory = Ordering.lt ∨
    (localeCompare a.directory b.directory = Ordering.eq ∧
      localeCompare a.name b.name ≠ Ordering.gt)))

/-- The directory comparator (analyzer.ts line 244): descending by count. -/
def directoryGE (a b : DirectoryInfo) : Prop := b.componentCount ≤ a.componentCount

instance : DecidableRel directoryGE := fun a b =>
  inferInstanceAs (Decidable (b.componentCount ≤ a.componentCount))

instance : IsTotal DirectoryInfo directoryGE :=
  ⟨fun a b => (Nat.le_total b.componentCount a.componentCount).imp (fun h => h) (fun h => h)⟩

instance : IsTrans DirectoryInfo directoryGE :=
  ⟨fun _ _ _ h1 h2 => Nat.le_trans h2 h1⟩

/-- `analyzeComponents` (analyzer.ts lines 207-253) over the discovered
component files: build one record and one directory-count increment per file,
then sort components by directory/name and directories by descending count. -/
def analyzeComponentsCore (files : List (List String × String)) :
    List ComponentInfo × List DirectoryInfo :=
  (List.insertionSort componentLE (files.map (fun f => mkComponentInfo f.1 f.2)),
   List.insertionSort directoryGE
     (((files.map (fun f => mkComponentInfo f.1 f.2)).foldl
         (fun m c => upsertCount m c.directory) []).map
       (fun p => DirectoryInfo.mk p.1 (getDirectoryLabel p.1) p.2)))

/-- Invariant of the directory-count fold: keys are distinct, each entry
counts the processed components with that directory, and every processed
component has an entry. -/
def DirInv (processed : List ComponentInfo) (m : List (String × Nat)) : Prop :=
  (m.map Prod.fst).Nodup ∧
  (∀ p ∈ m, p.2 = processed.countP (fun c => c.directory = p.1)) ∧
  (∀ c ∈ processed, ∃ p ∈ m, p.1 = c.directory)

/-- `EdgeInfo` of types.ts. -/
structure EdgeInfo where
  source : String
  target : String
deriving DecidableEq, Repr

/-- The node id of a discovered file (analyzer.ts lines 449-450). -/
def nodeIdOfRel (rel : List String) : String := deriveNodeId (String.intercalate "/" rel)

/-- Posix path resolution of appended segments against a base directory:
`.` and empty segments vanish, `..` pops (clamping at the filesystem root,
where the analyzed project lives in this embedding), which is what both
`path.resolve(fromDir, importPath)` and `path.join(projectPath, …)` do. -/
def normJoin (base : List String) : List String → List String
  | [] => base
  | seg :: rest =>
    if seg = "." ∨ seg = "" then normJoin base rest
    else if seg = ".." then normJoin base.dropLast rest
    else normJoin (base ++ [seg]) rest

/-- String concatenation of an extension onto a path: `resolved + ".ts"`
modifies the final segment. -/
def lastApp (segs : List String) (suffix : String) : List String :=
  match segs.getLast? with
  | some l => segs.dropLast ++ [l ++ suffix]
  | none => [suffix]

/-- The probe sequence of `resolveImportPath` (analyzer.ts line 425): the
literal path, each extension appended, then each `index` file. -/
def probeCandidates (r : List String) : List (List String) :=
  [r, lastApp r ".ts", lastApp r ".tsx", lastApp r ".js", lastApp r ".jsx",
   r ++ ["index.ts"], r ++ ["index.tsx"], r ++ ["index.js"], r ++ ["index.jsx"]]

/-- `resolveImportPath` (analyzer.ts lines 415-432): alias-rooted imports
resolve against the project root, relative imports against the importing
file's directory; the first probe candidate that is a file on disk wins. -/
def resolveImportPath (importPath : String) (fromFile : List String)
    (isFile : List String → Bool) : Option (List String) :=
  let resolved :=
    if "@/".data.isPrefixOf importPath.data then
      normJoin [] (splitString '/' (⟨importPath.data.drop 2⟩ : String))
    else normJoin fromFile.dropLast (splitString '/' importPath)
  (probeCandidates resolved).find? isFile

/-- `extractImports` (analyzer.ts lines 401-413): specifiers captured by the
dependency-pass import regex, kept when relative or alias-rooted. -/
def extractImports (content : String) : List String :=
  (jsImports true content).filter startsWithDotOrAlias

/-- `nodeMap.get` where the map was filled with `nodeMap.set(filePath,
nodeId)` for every discovered file (analyzer.ts line 456). -/
def nodeMapGet (srcPaths : List (List String)) (p : List String) : Option String :=
  if p ∈ srcPaths then some (nodeIdOfRel p) else none

/-- The edge candidate one import specifier contributes (analyzer.ts lines
473-481), including the truthiness guard `targetId && targetId !== sourceId`. -/
def edgeFromSpec (isFile : List String → Bool) (srcPaths : List (List String))
    (sourceId : String) (fromFile : List String) (spec : String) : Option EdgeInfo :=
  (resolveImportPath spec fromFile isFile).bind (fun resolved =>
    (nodeMapGet srcPaths resolved).bind (fun targetId =>
      if targetId ≠ "" ∧ targetId ≠ sourceId then some ⟨sourceId, targetId⟩ else none))

/-- The edges pushed while scanning one file (analyzer.ts lines 465-485),
including the truthiness guard `if (!sourceId) continue`. -/
def edgesFor (isFile : List String → Bool) (srcPaths : List (List String))
    (file : List String × String) : List EdgeInfo :=
  match nodeMapGet srcPaths file.1 with
  | none => []
  | some sourceId =>
    if sourceId = "" then []
    else (extractImports file.2).filterMap (edgeFromSpec isFile srcPaths sourceId file.1)

/-- The dedup key `` `${e.source}->${e.target}` `` (analyzer.ts line 496). -/
def edgeKey (e : EdgeInfo) : String := e.source ++ "->" ++ e.target

/-- One `Map.set`: replace the value at an existing key, else append. -/
def jsMapInsert (m : List (String × EdgeInfo)) (k : String) (v : EdgeInfo) :
    List (String × EdgeInfo) :=
  if m.any (fun p => p.1 = k) then m.map (fun p => if p.1 = k then (k, v) else p)
  else m ++ [(k, v)]

/-- `Array.from(new Map(edges.map((e) => [key, e])).values())` (analyzer.ts
line 496): key-insertion order, last value per key. -/
def dedupEdges (l : List EdgeInfo) : List EdgeInfo :=
  (l.foldl (fun m e => jsMapInsert m (edgeKey e) e) []).map Prod.snd

/-- The deduplicated edge list of `analyzeDependencies` over the discovered
source files, probing existence against all files on disk. -/
def analyzeDependenciesEdges (allFiles : List (List String))
    (srcs : List (List String × String)) : List EdgeInfo :=
  dedupEdges (srcs.flatMap (edgesFor (fun p => allFiles.contains p) (srcs.map Prod.fst)))

/-- Invariant of the edge-dedup fold: distinct keys, each key is its value's
key, each value was processed, and each processed edge has an entry under its
key. -/
def EdgeMapInv (processed : List EdgeInfo) (m : List (String × EdgeInfo)) : Prop :=
  (m.map Prod.fst).Nodup ∧
  (∀ p ∈ m, p.1 = edgeKey p.2) ∧
  (∀ p ∈ m, p.2 ∈ processed) ∧
  (∀ e ∈ processed, ∃ p ∈ m, p.1 = edgeKey e)

mutual

/-- A filesystem entry: a regular file with text content, or a directory.
The analyzed project is the entry list of its root directory, mounted at the
filesystem root.  The entry list is a bespoke list type so that the
traversals below are mutually structural (and hence compute inside the
kernel). -/
inductive FsEntry where
  | file (name : String) (content : String)
  | dir (name : String) (entries : FsList)

inductive FsList where
  | nil
  | cons (e : FsEntry) (rest : FsList)

end

/-- Name of an entry. -/
def FsEntry.name : FsEntry → String
  | .file n _ => n
  | .dir n _ => n

/-- First entry with the given name, the result of matching one `readdirSync`
level. -/
def findNamed : FsList → String → Option FsEntry
  | .nil, _ => none
  | .cons e rest, seg => if e.name = seg then some e else findNamed rest seg

/-- Walk a segment path from a directory's entry list. -/
def lookupEntry : FsList → List String → Option FsEntry
  | _, [] => none
  | es, [seg] => findNamed es seg
  | es, seg :: rest =>
    match findNamed es seg with
    | some (.dir _ sub) => lookupEntry sub rest
    | _ => none

/-- `fs.existsSync(p) && fs.statSync(p).isFile()`. -/
def isFilePath (root : FsList) (p : List String) : Bool :=
  match lookupEntry root p with
  | some (.file _ _) => true
  | _ => false

/-- Does the path name a directory? -/
def isDirPath (root : FsList) (p : List String) : Bool :=
  match lookupEntry root p with
  | some (.dir _ _) => true
  | _ => false

/-- `fs.readFileSync` as a total function: `none` when the path is missing or
is a directory (the code catches those reads and skips). -/
def readFileAt (root : FsList) (p : List String) : Option String :=
  match lookupEntry root p with
  | some (.file _ c) => some c
  | _ => none

mutual

/-- One loop iteration of `findApiRoutes` (analyzer.ts lines 32-39):
subdirectories are recursed into, `route.ts`/`route.js` files collected. -/
def findApiRoutesEntry : FsEntry → List String → List (List String)
  | .file n _, pre => if n = "route.ts" ∨ n = "route.js" then [pre ++ [n]] else []
  | .dir n es, pre => findApiRoutesList es (pre ++ [n])

/-- The loop of `findApiRoutes` (analyzer.ts lines 27-41) over a directory's
entries. -/
def findApiRoutesList : FsList → List String → List (List String)
  | .nil, _ => []
  | .cons e rest, pre => findApiRoutesEntry e pre ++ findApiRoutesList rest pre

end

/-- `findApiRoutes(dir)` at a candidate path: a missing path yields no
routes, a directory is scanned, and a regular file makes `readdirSync`
throw `ENOTDIR` (the guard is only `existsSync`), modelled as an error. -/
def findApiRoutesAt (root : FsList) (p : List String) :
    Except Unit (List (List String)) :=
  match lookupEntry root p with
  | some (.dir _ es) => .ok (findApiRoutesList es p)
  | some (.file _ _) => .error ()
  | none => .ok []

/-- `analyzeRoutes` (analyzer.ts lines 100-141) over the filesystem: scan the
four conventional API directories in order, read each discovered route file
(these are regular files, unreadable ones are skipped), emit and sort. -/
def analyzeRoutesFs (root : FsList) : Except Unit (List RouteInfo) := do
  let d1 ← findApiRoutesAt root ["app", "api"]
  let d2 ← findApiRoutesAt root ["src", "app", "api"]
  let d3 ← findApiRoutesAt root ["pages", "api"]
  let d4 ← findApiRoutesAt root ["src", "pages", "api"]
  pure (analyzeRoutesCore ((d1 ++ d2 ++ d3 ++ d4).filterMap
    (fun p => (readFileAt root p).map (fun c => (p, c)))))

/-- The ignore list shared by the component and dependency walks
(analyzer.ts line 148). -/
def IGNORED_DIRS : List String :=
  ["node_modules", ".next", ".git", "dist", "build", "__tests__", "__mocks__"]

/-- The component extension whitelist (analyzer.ts line 147). -/
def COMPONENT_EXTENSIONS : List String := [".tsx", ".jsx"]

/-- `isComponentFile` (analyzer.ts lines 150-155): component extension and an
uppercase-initial basename. -/
def isComponentFile (name : String) : Bool :=
  COMPONENT_EXTENSIONS.contains (extname name) &&
    (match name.data.take (name.data.length - (extname name).data.length) with
     | c :: _ => isAsciiUpper c
     | [] => false)

mutual

/-- One loop iteration of `findComponentFiles` (analyzer.ts lines 161-169):
ignored names are skipped before the directory check. -/
def findComponentFilesEntry : FsEntry → List String → List (List String)
  | .file n _, pre =>
    if IGNORED_DIRS.contains n then []
    else if isComponentFile n then [pre ++ [n]] else []
  | .dir n es, pre =>
    if IGNORED_DIRS.contains n then []
    else findComponentFilesList es (pre ++ [n])

/-- The loop of `findComponentFiles` (analyzer.ts lines 157-171). -/
def findComponentFilesList : FsList → List String → List (List String)
  | .nil, _ => []
  | .cons e rest, pre => findComponentFilesEntry e pre ++ findComponentFilesList rest pre

end

/-- `findComponentFiles(dir)` at a candidate path, with the same
`existsSync`-then-`readdirSync` behaviour as the API walk. -/
def findComponentFilesAt (root : FsList) (p : List String) :
    Except Unit (List (List String)) :=
  match lookupEntry root p with
  | some (.dir _ es) => .ok (findComponentFilesList es p)
  | some (.file _ _) => .error ()
  | none => .ok []

/-- `analyzeComponents` (analyzer.ts lines 207-253) over the filesystem. -/
def analyzeComponentsFs (root : FsList) :
    Except Unit (List ComponentInfo × List DirectoryInfo) := do
  let d1 ← findComponentFilesAt root ["components"]
  let d2 ← findComponentFilesAt root ["src", "components"]
  let d3 ← findComponentFilesAt root ["app"]
  let d4 ← findComponentFilesAt root ["src", "app"]
  pure (analyzeComponentsCore ((d1 ++ d2 ++ d3 ++ d4).filterMap
    (fun p => (readFileAt root p).map (fun c => (p, c)))))

/-- The conventional schema locations (analyzer.ts line 259), in priority
order. -/
def PRISMA_SCHEMA_PATHS : List (List String) :=
  [["prisma", "schema.prisma"], ["schema.prisma"], ["prisma", "schema", "schema.prisma"]]

/-- `findPrismaSchema` (analyzer.ts lines 261-269): the first candidate that
exists (`existsSync`, so a directory also counts). -/
def findPrismaSchemaAt (root : FsList) : Option (List String) :=
  PRISMA_SCHEMA_PATHS.find? (fun p => (lookupEntry root p).isSome)

/-- `analyzeModels` (analyzer.ts lines 351-363): `none` when no schema path
exists or reading it fails (the `try`/`catch` around `readFileSync`). -/
def analyzeModelsFs (root : FsList) :
    Option (List ModelInfo × List RelationshipInfo) :=
  (findPrismaSchemaAt root).bind (fun p =>
    (readFileAt root p).map (fun c => analyzeModelsCore c))

mutual

/-- One loop iteration of `findSourceFiles` (analyzer.ts lines 376-389): the
ignore list, then directory recursion or the source-extension check. -/
def findSourceFilesEntry : FsEntry → List String → List (List String) → List (List String)
  | .file n _, pre, acc =>
    if IGNORED_DIRS.contains n then acc
    else if SOURCE_EXTENSIONS.contains (extname n) then acc ++ [pre ++ [n]]
    else acc
  | .dir n es, pre, acc =>
    if IGNORED_DIRS.contains n then acc
    else findSourceFilesList es (pre ++ [n]) acc

/-- The loop of `findSourceFiles` (analyzer.ts lines 372-391) with the
500-file cap (`MAX_FILES`) checked before each entry. -/
def findSourceFilesList : FsList → List String → List (List String) → List (List String)
  | .nil, _, acc => acc
  | .cons e rest, pre, acc =>
    if acc.length ≥ 500 then acc
    else findSourceFilesList rest pre (findSourceFilesEntry e pre acc)

end

/-- `NodeInfo` of types.ts. -/
structure NodeInfo where
  id : String
  label : String
  directory : String
  type : String
deriving DecidableEq, Repr

/-- `ClusterInfo` of types.ts. -/
structure ClusterInfo where
  id : String
  label : String
  nodeIds : List String
deriving DecidableEq, Repr

/-- `getNodeType` (analyzer.ts lines 393-399) on the relative path string. -/
def getNodeType (relString : String) : String :=
  if containsSub "/components/".data relString.data ||
      containsSub "\\components\\".data relString.data then "component"
  else if containsSub "/lib/".data relString.data ||
      containsSub "\\lib\\".data relString.data ||
      containsSub "/utils/".data relString.data ||
      containsSub "\\utils\\".data relString.data then "lib"
  else if containsSub "/api/".data relString.data ||
      containsSub "\\api\\".data relString.data then "api"
  else if containsSub "/app/".data relString.data ||
      containsSub "\\app\\".data relString.data ||
      containsSub "/pages/".data relString.data ||
      containsSub "\\pages\\".data relString.data then "page"
  else "other"

/-- The node built for one discovered file (analyzer.ts lines 448-455). -/
def mkNodeInfo (rel : List String) : NodeInfo :=
  { id := nodeIdOfRel rel,
    label := baseNameNoExt rel,
    directory := dirnameOf rel,
    type := getNodeType (String.intercalate "/" rel) }

/-- `getClusterLabel` (analyzer.ts lines 434-438): the last two meaningful
directory segments, dropping `src` and `app`. -/
def getClusterLabel (dirPath : String) : String :=
  let parts := (splitString '/' dirPath).filter (fun p => p ≠ "")
  let meaningful := parts.filter (fun p => !(["src", "app"].contains p))
  let sliced := meaningful.drop (meaningful.length - 2)
  let joined := String.intercalate "/" sliced
  if joined = "" then "root" else joined

/-- `clusterMap.get(key).add(nodeId)` with JS `Set` semantics on an
insertion-ordered association list (analyzer.ts lines 458-462). -/
def clusterUpsert (m : List (String × List String)) (k : String) (v : String) :
    List (String × List String) :=
  if m.any (fun p => p.1 = k) then
    m.map (fun p => if p.1 = k then (p.1, if v ∈ p.2 then p.2 else p.2 ++ [v]) else p)
  else m ++ [(k, [v])]

/-- Separator replacement on a whole string (cluster ids, analyzer.ts
line 490). -/
def sepToUnderscoreStr (s : String) : String := ⟨s.data.map sepToUnderscore⟩

/-- The cluster comparator (analyzer.ts line 494): descending by size. -/
def clusterGE (a b : ClusterInfo) : Prop := b.nodeIds.length ≤ a.nodeIds.length

instance : DecidableRel clusterGE := fun a b =>
  inferInstanceAs (Decidable (b.nodeIds.length ≤ a.nodeIds.length))

/-- `analyzeDependencies` (analyzer.ts lines 440-499) over the filesystem:
nodes and clusters from the discovery loop, edges from the import loop
(unreadable files contribute no edges), dedup, and cluster filtering and
sorting. -/
def analyzeDependenciesFs (root : FsList) :
    List NodeInfo × List EdgeInfo × List ClusterInfo :=
  let sourceFiles := findSourceFilesList root [] []
  let nodes := sourceFiles.map mkNodeInfo
  let cmap := sourceFiles.foldl (fun m p =>
    clusterUpsert m (getClusterLabel (dirnameOf p)) (nodeIdOfRel p)) []
  let srcs := sourceFiles.filterMap (fun p => (readFileAt root p).map (fun c => (p, c)))
  let edges := dedupEdges (srcs.flatMap (edgesFor (fun q => isFilePath root q) sourceFiles))
  let clusters := List.insertionSort clusterGE
    ((cmap.filter (fun p => p.2.length > 1)).map
      (fun p => ClusterInfo.mk (sepToUnderscoreStr p.1) p.1 p.2))
  (nodes, edges, clusters)

/-- `RouteData` of types.ts. -/
structure RouteData where
  routes : List RouteInfo
  generatedAt : String
  projectPath : String
deriving DecidableEq, Repr

/-- `ComponentData` of types.ts. -/
structure ComponentData where
  components : List ComponentInfo
  directories : List DirectoryInfo
  generatedAt : String
  projectPath : String
deriving DecidableEq, Repr

/-- `ModelData` of types.ts. -/
structure ModelData where
  models : List ModelInfo
  relationships : List RelationshipInfo
  generatedAt : String
  projectPath : String
deriving DecidableEq, Repr

/-- `DependencyData` of types.ts. -/
structure DependencyData where
  nodes : List NodeInfo
  edges : List EdgeInfo
  clusters : List ClusterInfo
  generatedAt : String
  projectPath : String
deriving DecidableEq, Repr

/-- `AnalysisResult` of types.ts. -/
structure AnalysisResult where
  routes : Option RouteData
  components : Option ComponentData
  models : Option ModelData
  dependencies : Option DependencyData
  projectPath : String
  projectName : String
  generatedAt : String
deriving DecidableEq, Repr

/-- `analyzeCodebase` (analyzer.ts lines 505-536): run the four passes over
the same root and merge, mapping empty route, component and node lists to
`null`.  The project name (read from `package.json` by the code, a part no
claim concerns) is an input; the project path is the filesystem root; `ts`
is the clock value used for every `generatedAt`. -/
def analyzeCodebaseFs (root : FsList) (projectName ts : String) :
    Except Unit AnalysisResult :=
  match analyzeRoutesFs root with
  | .error e => .error e
  | .ok routes =>
  match analyzeComponentsFs root with
  | .error e => .error e
  | .ok comps =>
  .ok {
    routes := if routes.length > 0 then
        some { routes := routes, generatedAt := ts, projectPath := "" } else none,
    components := if comps.1.length > 0 then
        some { components := comps.1, directories := comps.2, generatedAt := ts,
               projectPath := "" } else none,
    models := (analyzeModelsFs root).map (fun mr =>
      { models := mr.1, relationships := mr.2, generatedAt := ts, projectPath := "" }),
    dependencies := if (analyzeDependenciesFs root).1.length > 0 then
        some { nodes := (analyzeDependenciesFs root).1,
               edges := (analyzeDependenciesFs root).2.1,
               clusters := (analyzeDependenciesFs root).2.2,
               generatedAt := ts, projectPath := "" } else none,
    projectPath := "",
    projectName := projectName,
    generatedAt := ts }

instance {ε α : Type} [DecidableEq ε] [DecidableEq α] : DecidableEq (Except ε α) :=
  fun a b =>
    match a, b with
    | .ok x, .ok y =>
      if h : x = y then isTrue (by rw [h]) else isFalse (fun he => h (Except.ok.inj he))
    | .error x, .error y =>
      if h : x = y then isTrue (by rw [h]) else isFalse (fun he => h (Except.error.inj he))
    | .ok _, .error _ => isFalse (fun he => Except.noConfusion he)
    | .error _, .ok _ => isFalse (fun he => Except.noConfusion he)

/-- Erase every `generatedAt` timestamp in a result. -/
def stripTimes (r : AnalysisResult) : AnalysisResult :=
  { r with
    generatedAt := "",
    routes := r.routes.map (fun x => { x with generatedAt := "" }),
    components := r.components.map (fun x => { x with generatedAt := "" }),
    models := r.models.map (fun x => { x with generatedAt := "" }),
    dependencies := r.dependencies.map (fun x => { x with generatedAt := "" }) }

/-- A project tree whose `pages/api` is a regular file (so no API directory,
no component directory and no schema file exist). -/
def pagesApiFileFs : FsList :=
  FsList.cons (FsEntry.dir "pages"
    (FsList.cons (FsEntry.file "api" "export function GET() \x7b\x7d") FsList.nil))
    FsList.nil

/-- A project tree containing only a README. -/
def readmeOnlyFs : FsList :=
  FsList.cons (FsEntry.file "README.md" "hi") FsList.nil

theorem stripLastExtension_append_ts (x : List Char) :
    stripLastExtension (x ++ ['.', 't', 's']) = x := by
  unfold stripLastExtension
  have hrev : (x ++ ['.', 't', 's']).reverse = 's' :: 't' :: '.' :: x.reverse := by
    simp
  rw [hrev]
  have htake : List.takeWhile (fun c => decide (c ≠ '.')) ('s' :: 't' :: '.' :: x.reverse)
      = ['s', 't'] := by
    simp [List.takeWhile]
  simp only [htake]
  have hlen : (2 : Nat) < ('s' :: 't' :: '.' :: x.reverse).length := by
    simp
  simp [hlen]

theorem sepToUnderscore_ne_dot (c : Char) (hc : c ≠ '.') : sepToUnderscore c ≠ '.' := by
  unfold sepToUnderscore
  split
  · decide
  · exact hc

theorem sepToUnderscore_inj (a b : Char)
    (ha : isCleanPathChar a) (hb : isCleanPathChar b)
    (h : sepToUnderscore a = sepToUnderscore b) : a = b := by
  unfold isCleanPathChar at ha hb
  unfold sepToUnderscore at h
  simp only [Bool.and_eq_true, decide_eq_true_eq] at ha hb
  by_cases h1 : a = '/' ∨ a = '\\' <;> by_cases h2 : b = '/' ∨ b = '\\' <;>
      simp [h1, h2] at h ⊢
  · rcases h1 with rfl | rfl <;> rcases h2 with rfl | rfl <;> simp_all
  · rcases h1 with rfl | rfl
    · exact absurd h.symm hb.1.1
    · exact absurd h.symm hb.1.1
  · rcases h2 with rfl | rfl
    · exact absurd h ha.1.1
    · exact absurd h ha.1.1
  · exact h

theorem map_sepToUnderscore_inj (p q : List Char)
    (hp : ∀ c ∈ p, isCleanPathChar c) (hq : ∀ c ∈ q, isCleanPathChar c)
    (h : p.map sepToUnderscore = q.map sepToUnderscore) : p = q := by
  induction p generalizing q with
  | nil => cases q with
    | nil => rfl
    | cons b bs => simp at h
  | cons a as ih =>
    cases q with
    | nil => simp at h
    | cons b bs =>
      simp only [List.map_cons, List.cons.injEq] at h
      have hab := sepToUnderscore_inj a b (hp a (by simp)) (hq b (by simp)) h.1
      have := ih bs (fun c hc => hp c (by simp [hc]))
        (fun c hc => hq c (by simp [hc])) h.2
      simp [hab, this]

/-- The node-id derivation is not injective: in a project holding the two
distinct files `a.ts` and `a.js`, the dependency pass discovers both files
and builds two `SourceNode`s carrying the same id `a`. -/
theorem nodeId_collision :
    deriveNodeId "a.ts" = deriveNodeId "a.js" ∧ ("a.ts" : String) ≠ "a.js" ∧
      extname "a.ts" ∈ SOURCE_EXTENSIONS ∧ extname "a.js" ∈ SOURCE_EXTENSIONS ∧
      findSourceFilesList (FsList.cons (FsEntry.file "a.ts" "x")
          (FsList.cons (FsEntry.file "a.js" "y") FsList.nil)) [] []
        = [["a.ts"], ["a.js"]] ∧
      ((analyzeDependenciesFs (FsList.cons (FsEntry.file "a.ts" "x")
          (FsList.cons (FsEntry.file "a.js" "y") FsList.nil))).1.map NodeInfo.id)
        = ["a", "a"] := by
  decide

/-- Amended C1: the id derivation is a deterministic function of the relative
path but it is injective only on collision-free paths: if two relative paths
are built from characters that are not underscores, backslashes or dots, and
carry one common extension, equal ids force equal paths.  (Without that
restriction ids can collide, see `nodeId_collision`.) -/
theorem deriveNodeId_inj_on_clean (p q : List Char)
    (hp : ∀ c ∈ p, isCleanPathChar c) (hq : ∀ c ∈ q, isCleanPathChar c)
    (h : deriveNodeId ⟨p ++ ['.', 't', 's']⟩ = deriveNodeId ⟨q ++ ['.', 't', 's']⟩) :
    p = q := by
  unfold deriveNodeId at h
  have hmap : ∀ r : List Char, (r ++ ['.', 't', 's']).map sepToUnderscore
      = r.map sepToUnderscore ++ ['.', 't', 's'] := by
    intro r
    simp [sepToUnderscore]
  have h2 : stripLastExtension (p.map sepToUnderscore ++ ['.', 't', 's'])
      = stripLastExtension (q.map sepToUnderscore ++ ['.', 't', 's']) := by
    have := congrArg String.data h
    simpa [hmap] using this
  rw [stripLastExtension_append_ts, stripLastExtension_append_ts] at h2
  exact map_sepToUnderscore_inj p q hp hq h2

theorem charCode_inj (c d : Char) (h : charCode c = charCode d) : c = d :=
  Char.eq_of_val_eq (UInt32.toNat.inj h)

theorem listCharLt_asymm (a b : List Char) (h1 : listCharLt a b = true)
    (h2 : listCharLt b a = true) : False := by
  induction a generalizing b with
  | nil =>
    cases b with
    | nil => simp [listCharLt] at h1
    | cons y bs => simp [listCharLt] at h2
  | cons x as ih =>
    cases b with
    | nil => simp [listCharLt] at h1
    | cons y bs =>
      simp only [listCharLt] at h1 h2
      by_cases hxy : charCode x < charCode y
      · have hyx : ¬ charCode y < charCode x := by omega
        simp [hxy, hyx] at h2
      · by_cases hyx : charCode y < charCode x
        · simp [hxy, hyx] at h1
        · simp [hxy, hyx] at h1 h2
          exact ih bs h1 h2

theorem listCharLt_neg_trans (a b c : List Char) (h : listCharLt c a = true) :
    listCharLt c b = true ∨ listCharLt b a = true := by
  induction c generalizing a b with
  | nil =>
    cases a with
    | nil => simp [listCharLt] at h
    | cons w as =>
      cases b with
      | nil => exact Or.inr (by simp [listCharLt])
      | cons y bs => exact Or.inl (by simp [listCharLt])
  | cons z cs ih =>
    cases a with
    | nil => simp [listCharLt] at h
    | cons w as =>
      cases b with
      | nil => exact Or.inr (by simp [listCharLt])
      | cons y bs =>
        simp only [listCharLt] at h ⊢
        by_cases hzw : charCode z < charCode w
        · by_cases hzy : charCode z < charCode y
          · exact Or.inl (by simp [hzy])
          · have hyw : charCode y < charCode w := by omega
            exact Or.inr (by simp [hyw])
        · by_cases hwz : charCode w < charCode z
          · simp [hzw, hwz] at h
          · simp only [hzw, hwz, if_false] at h
            by_cases hzy : charCode z < charCode y
            · exact Or.inl (by simp [hzy])
            · by_cases hyz : charCode y < charCode z
              · have hyw : charCode y < charCode w := by omega
                exact Or.inr (by simp [hyw])
              · rcases ih as bs h with h1 | h1
                · refine Or.inl ?_
                  simp [hzy, hyz, h1]
                · refine Or.inr ?_
                  have hyw : ¬ charCode y < charCode w := by omega
                  have hwy : ¬ charCode w < charCode y := by omega
                  simp [hyw, hwy, h1]

theorem listCharLt_connex_eq (a b : List Char) (h1 : ¬ listCharLt a b = true)
    (h2 : ¬ listCharLt b a = true) : a = b := by
  induction a generalizing b with
  | nil =>
    cases b with
    | nil => rfl
    | cons y bs => exact absurd (by simp [listCharLt]) h1
  | cons x as ih =>
    cases b with
    | nil => exact absurd (by simp [listCharLt]) h2
    | cons y bs =>
      simp only [listCharLt] at h1 h2
      by_cases hxy : charCode x < charCode y
      · exact absurd (by simp [hxy]) h1
      · by_cases hyx : charCode y < charCode x
        · exact absurd (by simp [hyx]) h2
        · have hx : x = y := charCode_inj x y (by omega)
          have ht : as = bs := ih bs (by simpa [hxy, hyx] using h1)
            (by simpa [hyx, hxy] using h2)
          rw [hx, ht]

theorem jsLe_total (a b : String) : jsLe a b = true ∨ jsLe b a = true := by
  unfold jsLe
  by_cases h : listCharLt b.data a.data = true
  · have h2 : ¬ listCharLt a.data b.data = true := fun hx => listCharLt_asymm _ _ hx h
    right
    simp [h2]
  · left
    simp [h]

theorem jsLe_trans (a b c : String) (h1 : jsLe a b = true) (h2 : jsLe b c = true) :
    jsLe a c = true := by
  have h1p : ¬ listCharLt b.data a.data = true := by simpa [jsLe] using h1
  have h2p : ¬ listCharLt c.data b.data = true := by simpa [jsLe] using h2
  have h3 : ¬ listCharLt c.data a.data = true := by
    intro h
    rcases listCharLt_neg_trans a.data b.data c.data h with hx | hx
    · exact h2p hx
    · exact h1p hx
  simpa [jsLe] using h3

theorem jsLe_antisymm (a b : String) (h1 : jsLe a b = true) (h2 : jsLe b a = true) :
    a = b := by
  have h1p : ¬ listCharLt b.data a.data = true := by simpa [jsLe] using h1
  have h2p : ¬ listCharLt a.data b.data = true := by simpa [jsLe] using h2
  have := listCharLt_connex_eq a.data b.data h2p h1p
  cases a
  cases b
  exact congrArg String.mk this

theorem jsLt_trichotomy (a b : String) : jsLt a b = true ∨ a = b ∨ jsLt b a = true := by
  unfold jsLt
  by_cases h1 : listCharLt a.data b.data = true
  · exact Or.inl h1
  · by_cases h2 : listCharLt b.data a.data = true
    · exact Or.inr (Or.inr h2)
    · refine Or.inr (Or.inl ?_)
      have := listCharLt_connex_eq a.data b.data h1 h2
      cases a
      cases b
      exact congrArg String.mk this

theorem jsLt_trans (a b c : String) (h1 : jsLt a b = true) (h2 : jsLt b c = true) :
    jsLt a c = true := by
  unfold jsLt at *
  by_contra h
  rcases listCharLt_neg_trans b.data c.data a.data h1 with hx | hx
  · exact h hx
  · exact listCharLt_asymm _ _ h2 hx

theorem lexNat_eq_iff (xs : List Nat) : ∀ ys, lexNat xs ys = Ordering.eq ↔ xs = ys := by
  induction xs with
  | nil =>
    intro ys
    cases ys with
    | nil => simp [lexNat]
    | cons b bs => simp [lexNat]
  | cons a as ih =>
    intro ys
    cases ys with
    | nil => simp [lexNat]
    | cons b bs =>
      by_cases h1 : a < b
      · have hne : a ≠ b := Nat.ne_of_lt h1
        simp [lexNat, h1, hne]
      · by_cases h2 : b < a
        · have hne : a ≠ b := (Nat.ne_of_lt h2).symm
          simp [lexNat, h1, h2, hne]
        · have he : a = b := Nat.le_antisymm (Nat.not_lt.mp h2) (Nat.not_lt.mp h1)
          subst he
          simp [lexNat, ih bs]

theorem lexNat_gt_iff (xs : List Nat) :
    ∀ ys, lexNat xs ys = Ordering.gt ↔ lexNat ys xs = Ordering.lt := by
  induction xs with
  | nil =>
    intro ys
    cases ys with
    | nil => simp [lexNat]
    | cons b bs => simp [lexNat]
  | cons a as ih =>
    intro ys
    cases ys with
    | nil => simp [lexNat]
    | cons b bs =>
      by_cases h1 : a < b
      · have h2 : ¬ b < a := by omega
        simp [lexNat, h1, h2]
      · by_cases h2 : b < a
        · simp [lexNat, h1, h2]
        · simp [lexNat, h1, h2, ih bs]

theorem lexNat_lt_trans (xs : List Nat) : ∀ ys zs, lexNat xs ys = Ordering.lt →
    lexNat ys zs = Ordering.lt → lexNat xs zs = Ordering.lt := by
  induction xs with
  | nil =>
    intro ys zs h1 h2
    cases ys with
    | nil => exact h2
    | cons b bs =>
      cases zs with
      | nil => simp [lexNat] at h2
      | cons c cs => simp [lexNat]
  | cons a as ih =>
    intro ys zs h1 h2
    cases ys with
    | nil => simp [lexNat] at h1
    | cons b bs =>
      cases zs with
      | nil => simp [lexNat] at h2
      | cons c cs =>
        simp only [lexNat] at h1 h2 ⊢
        by_cases hab : a < b
        · by_cases hbc : b < c
          · have hac : a < c := Nat.lt_trans hab hbc
            simp [hac]
          · by_cases hcb : c < b
            · simp [hbc, hcb] at h2
            · have he : b = c := by omega
              subst he
              simp [hab]
        · by_cases hba : b < a
          · simp [hab, hba] at h1
          · have he : a = b := by omega
            subst he
            by_cases hbc : a < c
            · simp [hbc]
            · by_cases hcb : c < a
              · simp [hbc, hcb] at h2
              · have he2 : a = c := by omega
                subst he2
                simp [hab] at h1 h2 ⊢
                exact ih bs cs h1 h2

theorem lexNat_cons_same (n : Nat) (xs ys : List Nat) :
    lexNat (n :: xs) (n :: ys) = lexNat xs ys := by
  simp [lexNat]

theorem localeCmpList_eq_iff (a b : List Char) : localeCmpList a b = Ordering.eq ↔
    (a.map primaryRank = b.map primaryRank ∧ a.map tertiaryRank = b.map tertiaryRank) := by
  unfold localeCmpList
  cases hp : lexNat (a.map primaryRank) (b.map primaryRank) with
  | lt =>
    refine ⟨fun h => (nomatch h), fun h => ?_⟩
    have h2 := (lexNat_eq_iff (a.map primaryRank) (b.map primaryRank)).mpr h.1
    rw [hp] at h2
    exact nomatch h2
  | eq =>
    rw [lexNat_eq_iff]
    have h2 := (lexNat_eq_iff (a.map primaryRank) (b.map primaryRank)).mp hp
    simp [h2]
  | gt =>
    refine ⟨fun h => (nomatch h), fun h => ?_⟩
    have h2 := (lexNat_eq_iff (a.map primaryRank) (b.map primaryRank)).mpr h.1
    rw [hp] at h2
    exact nomatch h2

theorem localeCmpList_gt_iff (a b : List Char) :
    localeCmpList a b = Ordering.gt ↔ localeCmpList b a = Ordering.lt := by
  unfold localeCmpList
  cases hp : lexNat (a.map primaryRank) (b.map primaryRank) with
  | lt =>
    have hq := (lexNat_gt_iff (b.map primaryRank) (a.map primaryRank)).mpr hp
    rw [hq]
    exact ⟨fun h => (nomatch h), fun h => (nomatch h)⟩
  | eq =>
    have hpe := (lexNat_eq_iff (a.map primaryRank) (b.map primaryRank)).mp hp
    have hq : lexNat (b.map primaryRank) (a.map primaryRank) = Ordering.eq :=
      (lexNat_eq_iff (b.map primaryRank) (a.map primaryRank)).mpr hpe.symm
    rw [hq]
    exact lexNat_gt_iff (a.map tertiaryRank) (b.map tertiaryRank)
  | gt =>
    have hq := (lexNat_gt_iff (a.map primaryRank) (b.map primaryRank)).mp hp
    rw [hq]
    exact ⟨fun _ => rfl, fun _ => rfl⟩

theorem localeCmpList_lt_trans (a b c : List Char) (h1 : localeCmpList a b = Ordering.lt)
    (h2 : localeCmpList b c = Ordering.lt) : localeCmpList a c = Ordering.lt := by
  unfold localeCmpList at h1 h2 ⊢
  cases hp1 : lexNat (a.map primaryRank) (b.map primaryRank) with
  | lt =>
    rw [hp1] at h1
    cases hp2 : lexNat (b.map primaryRank) (c.map primaryRank) with
    | lt =>
      have h3 := lexNat_lt_trans (a.map primaryRank) (b.map primaryRank)
        (c.map primaryRank) hp1 hp2
      rw [h3]
    | eq =>
      have he := (lexNat_eq_iff (b.map primaryRank) (c.map primaryRank)).mp hp2
      rw [← he, hp1]
    | gt =>
      rw [hp2] at h2
      exact nomatch h2
  | eq =>
    rw [hp1] at h1
    have he := (lexNat_eq_iff (a.map primaryRank) (b.map primaryRank)).mp hp1
    cases hp2 : lexNat (b.map primaryRank) (c.map primaryRank) with
    | lt => rw [he, hp2]
    | eq =>
      rw [hp2] at h2
      have he2 := (lexNat_eq_iff (b.map primaryRank) (c.map primaryRank)).mp hp2
      have hpe : lexNat (a.map primaryRank) (c.map primaryRank) = Ordering.eq :=
        (lexNat_eq_iff (a.map primaryRank) (c.map primaryRank)).mpr (he.trans he2)
      rw [hpe]
      exact lexNat_lt_trans (a.map tertiaryRank) (b.map tertiaryRank)
        (c.map tertiaryRank) h1 h2
    | gt =>
      rw [hp2] at h2
      exact nomatch h2
  | gt =>
    rw [hp1] at h1
    exact nomatch h1

theorem localeCmpList_cons_same (x : Char) (a b : List Char) :
    localeCmpList (x :: a) (x :: b) = localeCmpList a b := by
  unfold localeCmpList
  simp only [List.map_cons, lexNat_cons_same]

theorem localeCmpList_eq_congr (a b c : List Char) (he : localeCmpList b c = Ordering.eq) :
    localeCmpList a b = localeCmpList a c := by
  have h := (localeCmpList_eq_iff b c).mp he
  unfold localeCmpList
  rw [h.1, h.2]

theorem localeCmpList_eq_congr_left (a b c : List Char)
    (he : localeCmpList a b = Ordering.eq) :
    localeCmpList a c = localeCmpList b c := by
  have h := (localeCmpList_eq_iff a b).mp he
  unfold localeCmpList
  rw [h.1, h.2]

theorem localeCompare_eq_symm (a b : String) (h : localeCompare a b = Ordering.eq) :
    localeCompare b a = Ordering.eq := by
  have h2 := (localeCmpList_eq_iff a.data b.data).mp h
  exact (localeCmpList_eq_iff b.data a.data).mpr ⟨h2.1.symm, h2.2.symm⟩

/-- On the plain path alphabet, primary collation weights order and identify
characters exactly as code units do. -/
theorem plainChar_agree : ∀ c ∈ plainPathChars, ∀ d ∈ plainPathChars,
    ((primaryRank c < primaryRank d) ↔ (charCode c < charCode d))
    ∧ ((primaryRank c = primaryRank d) ↔ c = d) := by decide

theorem map_primary_inj (a : List Char) : ∀ b, (∀ c ∈ a, c ∈ plainPathChars) →
    (∀ c ∈ b, c ∈ plainPathChars) →
    a.map primaryRank = b.map primaryRank → a = b := by
  induction a with
  | nil =>
    intro b _ _ h
    cases b with
    | nil => rfl
    | cons y ys => simp at h
  | cons x xs ih =>
    intro b ha hb h
    cases b with
    | nil => simp at h
    | cons y ys =>
      simp only [List.map_cons, List.cons.injEq] at h
      have hx := ha x (List.mem_cons_self x xs)
      have hy := hb y (List.mem_cons_self y ys)
      have hxy : x = y := ((plainChar_agree x hx y hy).2).mp h.1
      subst hxy
      rw [ih ys (fun c hc => ha c (List.mem_cons_of_mem _ hc))
        (fun c hc => hb c (List.mem_cons_of_mem _ hc)) h.2]

theorem localeCmp_plain_lt (a : List Char) : ∀ b, (∀ c ∈ a, c ∈ plainPathChars) →
    (∀ c ∈ b, c ∈ plainPathChars) → localeCmpList a b = Ordering.lt →
    listCharLt a b = true := by
  induction a with
  | nil =>
    intro b _ _ h
    cases b with
    | nil => exact (nomatch h)
    | cons y ys => rfl
  | cons x xs ih =>
    intro b ha hb h
    cases b with
    | nil => simp [localeCmpList, lexNat] at h
    | cons y ys =>
      have hx := ha x (List.mem_cons_self x xs)
      have hy := hb y (List.mem_cons_self y ys)
      by_cases hlt : primaryRank x < primaryRank y
      · have hcc : charCode x < charCode y := ((plainChar_agree x hx y hy).1).mp hlt
        simp [listCharLt, hcc]
      · by_cases hgt : primaryRank y < primaryRank x
        · have hgl : localeCmpList (x :: xs) (y :: ys) = Ordering.gt := by
            unfold localeCmpList
            simp [lexNat, hlt, hgt]
          exact absurd (hgl.symm.trans h) (by decide)
        · have he : primaryRank x = primaryRank y := by omega
          have hxy : x = y := ((plainChar_agree x hx y hy).2).mp he
          subst hxy
          rw [localeCmpList_cons_same] at h
          have hc1 : ¬ charCode x < charCode x := by omega
          have htail := ih ys (fun c hc => ha c (List.mem_cons_of_mem _ hc))
            (fun c hc => hb c (List.mem_cons_of_mem _ hc)) h
          simp [listCharLt, hc1, htail]

theorem localeCmp_plain_eq (a b : List Char) (ha : ∀ c ∈ a, c ∈ plainPathChars)
    (hb : ∀ c ∈ b, c ∈ plainPathChars) (h : localeCmpList a b = Ordering.eq) : a = b := by
  have h2 := (localeCmpList_eq_iff a b).mp h
  exact map_primary_inj a b ha hb h2.1

/-- The five HTTP method names are uppercase ASCII, where collation and
code-unit comparison agree. -/
theorem http_method_cmp_agree : ∀ m1 ∈ HTTP_METHODS, ∀ m2 ∈ HTTP_METHODS,
    (localeCompare m1 m2 ≠ Ordering.gt ↔ jsLe m1 m2 = true) := by decide

theorem routeRecordsFor_fields (rel : List String) (content : String) :
    ∀ r ∈ routeRecordsFor rel content, r.file = String.intercalate "/" rel ∧
      r.path = pathToApiRoute rel ∧ r.feature = extractFeature (pathToApiRoute rel) := by
  intro r hr
  simp only [routeRecordsFor, List.mem_map] at hr
  obtain ⟨m, _, rfl⟩ := hr
  exact ⟨rfl, rfl, rfl⟩

theorem bind_filter_key (files : List (List String × String))
    (hnodup : (files.map (fun f => String.intercalate "/" f.1)).Nodup)
    (f : List String × String) (hf : f ∈ files) :
    (files.flatMap (fun g => routeRecordsFor g.1 g.2)).filter
        (fun r => r.file = String.intercalate "/" f.1)
      = routeRecordsFor f.1 f.2 := by
  induction files with
  | nil => cases hf
  | cons g rest ih =>
    simp only [List.flatMap_cons, List.filter_append]
    simp only [List.map_cons, List.nodup_cons] at hnodup
    rcases List.mem_cons.mp hf with rfl | hfr
    · have h1 : (routeRecordsFor f.1 f.2).filter
          (fun r => r.file = String.intercalate "/" f.1) = routeRecordsFor f.1 f.2 := by
        apply List.filter_eq_self.mpr
        intro r hr
        simpa using (routeRecordsFor_fields f.1 f.2 r hr).1
      have h2 : (rest.flatMap (fun g => routeRecordsFor g.1 g.2)).filter
          (fun r => r.file = String.intercalate "/" f.1) = [] := by
        apply List.filter_eq_nil_iff.mpr
        intro r hr
        rcases List.mem_flatMap.mp hr with ⟨g, hg, hrg⟩
        have := (routeRecordsFor_fields g.1 g.2 r hrg).1
        simp only [this, decide_eq_true_eq]
        intro hcontra
        exact hnodup.1 (hcontra ▸ List.mem_map_of_mem (fun f => String.intercalate "/" f.1) hg)
      rw [h1, h2, List.append_nil]
    · have h1 : (routeRecordsFor g.1 g.2).filter
          (fun r => r.file = String.intercalate "/" f.1) = [] := by
        apply List.filter_eq_nil_iff.mpr
        intro r hr
        have := (routeRecordsFor_fields g.1 g.2 r hr).1
        simp only [this, decide_eq_true_eq]
        intro hcontra
        exact hnodup.1 (hcontra.symm ▸ List.mem_map_of_mem (fun f => String.intercalate "/" f.1) hfr)
      rw [h1, List.nil_append]
      exact ih hnodup.2 hfr

/-- C5: for every route-handler file whose content is read, the number of
emitted route records with that file's relative path equals the number of
detected HTTP methods — which are pairwise distinct — and every record of
that file carries that file's route path and feature (analyzer.ts lines
43-58 and 109-138).  The hypothesis asks the discovered files to have
pairwise distinct relative paths, which holds for filesystem traversals. -/
theorem routes_per_file (files : List (List String × String))
    (hnodup : (files.map (fun f => String.intercalate "/" f.1)).Nodup)
    (f : List String × String) (hf : f ∈ files) :
    ((analyzeRoutesCore files).filter
        (fun r => r.file = String.intercalate "/" f.1)).length
      = (extractMethods f.2).length
    ∧ (extractMethods f.2).Nodup
    ∧ ∀ r ∈ analyzeRoutesCore files, r.file = String.intercalate "/" f.1 →
        r.path = pathToApiRoute f.1 ∧ r.feature = extractFeature (pathToApiRoute f.1) := by
  have hperm : List.Perm (analyzeRoutesCore files)
      (files.flatMap (fun g => routeRecordsFor g.1 g.2)) :=
    List.perm_insertionSort routeLE _
  refine ⟨?_, ?_, ?_⟩
  · have := (hperm.filter (fun r => r.file = String.intercalate "/" f.1)).length_eq
    rw [this, bind_filter_key files hnodup f hf]
    simp [routeRecordsFor]
  · exact List.Nodup.filter _ (by decide)
  · intro r hr hfile
    have hrb : r ∈ files.flatMap (fun g => routeRecordsFor g.1 g.2) := hperm.mem_iff.mp hr
    have : r ∈ (files.flatMap (fun g => routeRecordsFor g.1 g.2)).filter
        (fun r => r.file = String.intercalate "/" f.1) :=
      List.mem_filter.mpr ⟨hrb, by simpa using hfile⟩
    rw [bind_filter_key files hnodup f hf] at this
    exact (routeRecordsFor_fields f.1 f.2 r this).2

/-- Concrete instantiation of `routes_per_file`: one file `app/api/users/route.ts`
exporting a GET and a POST handler yields exactly two records. -/
theorem routes_per_file_witness :
    ((analyzeRoutesCore [(["app", "api", "users", "route.ts"],
          "export async function GET() \x7b\x7d\nexport function POST() \x7b\x7d")]).filter
        (fun r => r.file = String.intercalate "/" ["app", "api", "users", "route.ts"])).length
      = (extractMethods
          "export async function GET() \x7b\x7d\nexport function POST() \x7b\x7d").length
    ∧ (extractMethods
          "export async function GET() \x7b\x7d\nexport function POST() \x7b\x7d").Nodup
    ∧ ∀ r ∈ analyzeRoutesCore [(["app", "api", "users", "route.ts"],
          "export async function GET() \x7b\x7d\nexport function POST() \x7b\x7d")],
        r.file = String.intercalate "/" ["app", "api", "users", "route.ts"] →
        r.path = pathToApiRoute ["app", "api", "users", "route.ts"]
          ∧ r.feature = extractFeature (pathToApiRoute ["app", "api", "users", "route.ts"]) :=
  routes_per_file
    [(["app", "api", "users", "route.ts"],
        "export async function GET() \x7b\x7d\nexport function POST() \x7b\x7d")]
    (by decide)
    (["app", "api", "users", "route.ts"],
        "export async function GET() \x7b\x7d\nexport function POST() \x7b\x7d")
    (by simp)

theorem routeLE_isTotal : IsTotal RouteInfo routeLE := by
  constructor
  intro a b
  cases hp : localeCompare a.path b.path with
  | lt => exact Or.inl (Or.inl hp)
  | gt => exact Or.inr (Or.inl ((localeCmpList_gt_iff a.path.data b.path.data).mp hp))
  | eq =>
    cases hm : localeCompare a.method b.method with
    | lt => exact Or.inl (Or.inr ⟨hp, by simp [hm]⟩)
    | eq => exact Or.inl (Or.inr ⟨hp, by simp [hm]⟩)
    | gt =>
      refine Or.inr (Or.inr ⟨localeCompare_eq_symm _ _ hp, ?_⟩)
      have h2 := (localeCmpList_gt_iff a.method.data b.method.data).mp hm
      simp [localeCompare, h2]

theorem routeLE_isTrans : IsTrans RouteInfo routeLE := by
  constructor
  intro a b c hab hbc
  rcases hab with h1 | ⟨e1, m1⟩
  · rcases hbc with h2 | ⟨e2, m2⟩
    · exact Or.inl (localeCmpList_lt_trans a.path.data b.path.data c.path.data h1 h2)
    · refine Or.inl ?_
      have h3 := localeCmpList_eq_congr a.path.data b.path.data c.path.data e2
      exact h3.symm.trans h1
  · rcases hbc with h2 | ⟨e2, m2⟩
    · refine Or.inl ?_
      have h3 := localeCmpList_eq_congr_left a.path.data b.path.data c.path.data e1
      exact h3.trans h2
    · refine Or.inr ⟨?_, ?_⟩
      · have he1 := (localeCmpList_eq_iff a.path.data b.path.data).mp e1
        have he2 := (localeCmpList_eq_iff b.path.data c.path.data).mp e2
        exact (localeCmpList_eq_iff a.path.data c.path.data).mpr
          ⟨he1.1.trans he2.1, he1.2.trans he2.2⟩
      · intro hg
        cases hm1 : localeCompare a.method b.method with
        | gt => exact m1 hm1
        | eq =>
          have h3 := localeCmpList_eq_congr_left a.method.data b.method.data c.method.data hm1
          exact m2 (h3.symm.trans hg)
        | lt =>
          cases hm2 : localeCompare b.method c.method with
          | gt => exact m2 hm2
          | lt =>
            have h3 := localeCmpList_lt_trans a.method.data b.method.data
              c.method.data hm1 hm2
            exact absurd (h3.symm.trans hg) (by decide)
          | eq =>
            have h3 := localeCmpList_eq_congr a.method.data b.method.data c.method.data hm2
            exact absurd ((h3.symm.trans hm1).symm.trans hg) (by decide)

theorem lexRouteLE_isTotal : IsTotal RouteInfo lexRouteLE := by
  constructor
  intro a b
  rcases jsLt_trichotomy a.path b.path with h | h | h
  · exact Or.inl (Or.inl h)
  · rcases jsLe_total a.method b.method with hm | hm
    · exact Or.inl (Or.inr ⟨h, hm⟩)
    · exact Or.inr (Or.inr ⟨h.symm, hm⟩)
  · exact Or.inr (Or.inl h)

theorem lexRouteLE_isTrans : IsTrans RouteInfo lexRouteLE := by
  constructor
  intro a b c hab hbc
  rcases hab with h1 | ⟨e1, l1⟩
  · rcases hbc with h2 | ⟨e2, l2⟩
    · exact Or.inl (jsLt_trans _ _ _ h1 h2)
    · exact Or.inl (e2 ▸ h1)
  · rcases hbc with h2 | ⟨e2, l2⟩
    · refine Or.inl ?_
      rw [e1]
      exact h2
    · exact Or.inr ⟨e1.trans e2, jsLe_trans _ _ _ l1 l2⟩

/-- The original C6 fails: the comparator is `localeCompare`, which collates
case-insensitively at primary strength, so a project with handler directories
`Billing` and `auth` emits the paths in the order `/api/auth`,
`/api/Billing` — not lexicographic order, under which `/api/Billing`
precedes `/api/auth` because `B` (0x42) is below `a` (0x61). -/
theorem routes_locale_not_lexicographic :
    (analyzeRoutesCore
        [(["app", "api", "Billing", "route.ts"], "export function GET() \x7b\x7d"),
         (["app", "api", "auth", "route.ts"], "export function GET() \x7b\x7d")]).map
        RouteInfo.path
      = ["/api/auth", "/api/Billing"]
    ∧ ¬ (analyzeRoutesCore
        [(["app", "api", "Billing", "route.ts"], "export function GET() \x7b\x7d"),
         (["app", "api", "auth", "route.ts"], "export function GET() \x7b\x7d")]).Sorted
        lexRouteLE := by
  decide

/-- C6 amended: the route pass sorts with the `localeCompare` comparator, so
on projects whose derived route paths use only hyphen, dot, slash, digits and
lowercase letters — where the default collation coincides with code-unit
order — the output is sorted by the total, transitive order "lexicographic
by path, ties broken lexicographically by method".  (Mixed-case paths break
this: see the counterexample.) -/
theorem routes_sorted_on_plain_paths (files : List (List String × String))
    (hplain : ∀ f ∈ files, ∀ c ∈ (pathToApiRoute f.1).data, c ∈ plainPathChars) :
    (analyzeRoutesCore files).Sorted lexRouteLE
      ∧ (∀ a b : RouteInfo, lexRouteLE a b ∨ lexRouteLE b a)
      ∧ ∀ a b c : RouteInfo, lexRouteLE a b → lexRouteLE b c → lexRouteLE a c := by
  refine ⟨?_, lexRouteLE_isTotal.total,
    fun a b c hab hbc => lexRouteLE_isTrans.trans a b c hab hbc⟩
  have hs : (analyzeRoutesCore files).Sorted routeLE :=
    @List.sorted_insertionSort RouteInfo routeLE _ routeLE_isTotal routeLE_isTrans _
  have hmem : ∀ r ∈ analyzeRoutesCore files,
      (∀ c ∈ r.path.data, c ∈ plainPathChars) ∧ r.method ∈ HTTP_METHODS := by
    intro r hr
    have hperm : List.Perm (analyzeRoutesCore files)
        (files.flatMap (fun g => routeRecordsFor g.1 g.2)) :=
      List.perm_insertionSort routeLE _
    have hrb := hperm.mem_iff.mp hr
    rcases List.mem_flatMap.mp hrb with ⟨f, hf, hrf⟩
    constructor
    · have hpath := (routeRecordsFor_fields f.1 f.2 r hrf).2.1
      rw [hpath]
      exact hplain f hf
    · simp only [routeRecordsFor, List.mem_map] at hrf
      obtain ⟨m, hm, rfl⟩ := hrf
      exact List.mem_of_mem_filter hm
  refine List.Pairwise.imp_of_mem ?_ hs
  intro r1 r2 h1 h2 hle
  have hp1 := hmem r1 h1
  have hp2 := hmem r2 h2
  rcases hle with hlt | ⟨heq, hm⟩
  · exact Or.inl (localeCmp_plain_lt r1.path.data r2.path.data hp1.1 hp2.1 hlt)
  · refine Or.inr ⟨?_, ?_⟩
    · exact String.ext (localeCmp_plain_eq r1.path.data r2.path.data hp1.1 hp2.1 heq)
    · exact (http_method_cmp_agree r1.method hp1.2 r2.method hp2.2).mp hm

theorem relKeyOf_mkRelationship (models : List ModelInfo) (m : ModelInfo) (f : FieldInfo) :
    relKeyOf (mkRelationship models m f) = sortPairKey m.name f.type := rfl

theorem relStep_inv (models : List ModelInfo) (st : List String × List RelationshipInfo)
    (mf : ModelInfo × FieldInfo) (h : RelInv st) : RelInv (relStep models st mf) := by
  unfold relStep
  split_ifs with h1 h2
  · exact h
  · refine ⟨fun k => ?_, ?_⟩
    · simp only [List.mem_cons, List.map_append, List.mem_append, List.map_cons, List.map_nil,
        List.mem_singleton, List.not_mem_nil, or_false, relKeyOf_mkRelationship]
      rw [h.1 k]
      exact or_comm
    · have hknot : sortPairKey mf.1.name mf.2.type ∉ st.2.map relKeyOf :=
        fun hmem => h2 ((h.1 _).mpr hmem)
      simp only [List.map_append, List.map_cons, List.map_nil, relKeyOf_mkRelationship]
      exact List.Nodup.append h.2 (by simp)
        (fun a ha hb => by
          simp only [List.mem_singleton] at hb
          exact hknot (hb ▸ ha))
  · exact h

theorem foldl_relStep_inv (models : List ModelInfo) (l : List (ModelInfo × FieldInfo))
    (st : List String × List RelationshipInfo) (h : RelInv st) :
    RelInv (l.foldl (relStep models) st) := by
  induction l generalizing st with
  | nil => exact h
  | cons x xs ih => exact ih _ (relStep_inv models st x h)

theorem relStep_seen_mono (models : List ModelInfo) (st : List String × List RelationshipInfo)
    (mf : ModelInfo × FieldInfo) : st.1 ⊆ (relStep models st mf).1 := by
  unfold relStep
  split_ifs with h1 h2
  · exact fun a ha => ha
  · exact fun a ha => List.mem_cons_of_mem _ ha
  · exact fun a ha => ha

theorem foldl_seen_mono (models : List ModelInfo) (l : List (ModelInfo × FieldInfo))
    (st : List String × List RelationshipInfo) : st.1 ⊆ (l.foldl (relStep models) st).1 := by
  induction l generalizing st with
  | nil => exact fun a ha => ha
  | cons x xs ih => exact fun a ha => ih (relStep models st x) (relStep_seen_mono models st x ha)

theorem foldl_seen_of_mem (models : List ModelInfo) (l : List (ModelInfo × FieldInfo))
    (st : List String × List RelationshipInfo) (m : ModelInfo) (f : FieldInfo)
    (hmem : (m, f) ∈ l) (hrel : f.isRelation = true) :
    sortPairKey m.name f.type ∈ (l.foldl (relStep models) st).1 := by
  induction l generalizing st with
  | nil => cases hmem
  | cons x xs ih =>
    rcases List.mem_cons.mp hmem with heq | hmem2
    · have hx : sortPairKey m.name f.type ∈ (relStep models st x).1 := by
        subst heq
        unfold relStep
        simp only [hrel, if_true]
        split_ifs with h2
        · exact h2
        · exact List.mem_cons_self _ _
      exact foldl_seen_mono models xs (relStep models st x) hx
    · exact ih (relStep models st x) hmem2

theorem foldl_records_shape (models : List ModelInfo) (l : List (ModelInfo × FieldInfo))
    (st : List String × List RelationshipInfo) (P : RelationshipInfo → Prop)
    (hst : ∀ r ∈ st.2, P r)
    (hl : ∀ mf ∈ l, mf.2.isRelation = true → P (mkRelationship models mf.1 mf.2)) :
    ∀ r ∈ (l.foldl (relStep models) st).2, P r := by
  induction l generalizing st with
  | nil => exact hst
  | cons x xs ih =>
    refine ih (relStep models st x) ?_ (fun mf hmf => hl mf (List.mem_cons_of_mem x hmf))
    intro r hr
    unfold relStep at hr
    split_ifs at hr with h1 h2
    · exact hst r hr
    · rcases List.mem_append.mp hr with hr2 | hr2
      · exact hst r hr2
      · rw [List.mem_singleton.mp hr2]
        exact hl x (List.mem_cons_self x xs) h1
    · exact hst r hr

theorem dash_concat_inj (a b c d : List Char) (ha : '-' ∉ a) (hc : '-' ∉ c)
    (h : a ++ '-' :: b = c ++ '-' :: d) : a = c ∧ b = d := by
  induction a generalizing c with
  | nil =>
    cases c with
    | nil => simpa using h
    | cons y c2 =>
      simp only [List.nil_append, List.cons_append, List.cons.injEq] at h
      exfalso
      apply hc
      rw [← h.1]
      exact List.mem_cons_self _ _
  | cons x a2 ih =>
    cases c with
    | nil =>
      simp only [List.cons_append, List.nil_append, List.cons.injEq] at h
      exfalso
      apply ha
      rw [h.1]
      exact List.mem_cons_self _ _
    | cons y c2 =>
      simp only [List.cons_append, List.cons.injEq] at h
      have ha2 : '-' ∉ a2 := fun hx => ha (List.mem_cons_of_mem x hx)
      have hc2 : '-' ∉ c2 := fun hx => hc (List.mem_cons_of_mem y hx)
      obtain ⟨e1, e2⟩ := ih c2 ha2 hc2 h.2
      exact ⟨by rw [h.1, e1], e2⟩

theorem append_dash_inj (a b c d : String)
    (ha : ('-' : Char) ∉ a.data) (hc : ('-' : Char) ∉ c.data)
    (h : a ++ "-" ++ b = c ++ "-" ++ d) : a = c ∧ b = d := by
  have hd := congrArg String.data h
  simp only [String.data_append, List.append_assoc] at hd
  obtain ⟨e1, e2⟩ := dash_concat_inj a.data b.data c.data d.data ha hc hd
  constructor
  · cases a
    cases c
    exact congrArg String.mk e1
  · cases b
    cases d
    exact congrArg String.mk e2

theorem sortPairKey_comm (a b : String) : sortPairKey a b = sortPairKey b a := by
  unfold sortPairKey
  by_cases hab : jsLe a b = true <;> by_cases hba : jsLe b a = true
  · have : a = b := jsLe_antisymm a b hab hba
    subst this
    simp
  · simp [hab, hba]
  · simp [hab, hba]
  · rcases jsLe_total a b with h | h
    · exact absurd h hab
    · exact absurd h hba

theorem sortPairKey_inj_pair (a b c d : String)
    (ha : ('-' : Char) ∉ a.data) (hb : ('-' : Char) ∉ b.data)
    (hc : ('-' : Char) ∉ c.data) (hd : ('-' : Char) ∉ d.data)
    (h : sortPairKey a b = sortPairKey c d) :
    (a = c ∧ b = d) ∨ (a = d ∧ b = c) := by
  unfold sortPairKey at h
  by_cases h1 : jsLe a b = true <;> by_cases h2 : jsLe c d = true
  · rw [if_pos h1, if_pos h2] at h
    exact Or.inl (append_dash_inj a b c d ha hc h)
  · rw [if_pos h1, if_neg h2] at h
    obtain ⟨e1, e2⟩ := append_dash_inj a b d c ha hd h
    exact Or.inr ⟨e1, e2⟩
  · rw [if_neg h1, if_pos h2] at h
    obtain ⟨e1, e2⟩ := append_dash_inj b a c d hb hc h
    exact Or.inr ⟨e2, e1⟩
  · rw [if_neg h1, if_neg h2] at h
    obtain ⟨e1, e2⟩ := append_dash_inj b a d c hb hd h
    exact Or.inl ⟨e2, e1⟩

theorem countP_congr_mem (l : List RelationshipInfo) (p q : RelationshipInfo → Bool)
    (h : ∀ a ∈ l, p a = q a) : l.countP p = l.countP q := by
  induction l with
  | nil => rfl
  | cons x xs ih =>
    simp [List.countP_cons, h x (List.mem_cons_self x xs),
      ih (fun a ha => h a (List.mem_cons_of_mem x ha))]

theorem countP_keyOf (l : List RelationshipInfo) (K : String) :
    (l.countP (fun r => relKeyOf r = K)) = (l.map relKeyOf).count K := by
  induction l with
  | nil => rfl
  | cons r rs ih =>
    by_cases hK : relKeyOf r = K
    · simp [List.countP_cons, List.count_cons, hK, ih]
    · simp [List.countP_cons, List.count_cons, hK, ih, Ne.symm hK]

/-- C3: for two distinct schema entities with relation fields pointing at
each other, `extractRelationships` stores exactly one record for the
unordered pair of their names (analyzer.ts lines 324-349).  The hypotheses
record what the schema parser guarantees about its output: model names
contain no `-` (they are `\w+` captures, so the `join("-")` dedup key is
unambiguous) and a relation field's type is a declared model name. -/
theorem relationship_dedup
    (models : List ModelInfo)
    (hNames : ∀ m ∈ models, ('-' : Char) ∉ m.name.data)
    (hRel : ∀ m ∈ models, ∀ f ∈ m.fields, f.isRelation = true →
      f.type ∈ models.map ModelInfo.name)
    (A B : ModelInfo) (hA : A ∈ models) (hB : B ∈ models)
    (fA : FieldInfo) (hfA : fA ∈ A.fields) (hfArel : fA.isRelation = true)
    (hfAty : fA.type = B.name)
    (fB : FieldInfo) (_hfB : fB ∈ B.fields) (_hfBrel : fB.isRelation = true)
    (_hfBty : fB.type = A.name) :
    (extractRelationships models).countP
      (fun r => (r.fromModel = A.name ∧ r.toModel = B.name) ∨
        (r.fromModel = B.name ∧ r.toModel = A.name)) = 1 := by
  have hInv : RelInv ((modelFieldPairs models).foldl (relStep models) ([], [])) :=
    foldl_relStep_inv models _ _ ⟨fun k => by simp, by simp⟩
  have hshape : ∀ r ∈ ((modelFieldPairs models).foldl (relStep models) ([], [])).2,
      (('-' : Char) ∉ r.fromModel.data) ∧ (('-' : Char) ∉ r.toModel.data) := by
    refine foldl_records_shape models _ _ _ (by simp) ?_
    intro mf hmf hrel
    rcases List.mem_flatMap.mp hmf with ⟨m, hm, hmap⟩
    rcases List.mem_map.mp hmap with ⟨f, hf, hfe⟩
    have h1 : mf.1 = m := by rw [← hfe]
    have h2 : mf.2 = f := by rw [← hfe]
    constructor
    · show ('-' : Char) ∉ (mkRelationship models mf.1 mf.2).fromModel.data
      have : (mkRelationship models mf.1 mf.2).fromModel = mf.1.name := rfl
      rw [this, h1]
      exact hNames m hm
    · show ('-' : Char) ∉ (mkRelationship models mf.1 mf.2).toModel.data
      have : (mkRelationship models mf.1 mf.2).toModel = mf.2.type := rfl
      rw [this, h2]
      have := hRel m hm f hf (h2 ▸ hrel)
      rcases List.mem_map.mp this with ⟨m2, hm2, he⟩
      rw [← he]
      exact hNames m2 hm2
  have hApos : ('-' : Char) ∉ A.name.data := hNames A hA
  have hBpos : ('-' : Char) ∉ B.name.data := hNames B hB
  have hpt : ∀ r ∈ ((modelFieldPairs models).foldl (relStep models) ([], [])).2,
      (((r.fromModel = A.name ∧ r.toModel = B.name) ∨
        (r.fromModel = B.name ∧ r.toModel = A.name)) ↔
        relKeyOf r = sortPairKey A.name B.name) := by
    intro r hr
    constructor
    · rintro (⟨e1, e2⟩ | ⟨e1, e2⟩)
      · unfold relKeyOf
        rw [e1, e2]
      · unfold relKeyOf
        rw [e1, e2]
        exact sortPairKey_comm B.name A.name
    · intro hk
      have := sortPairKey_inj_pair r.fromModel r.toModel A.name B.name
        (hshape r hr).1 (hshape r hr).2 hApos hBpos hk
      exact this
  have hcong : (extractRelationships models).countP
      (fun r => (r.fromModel = A.name ∧ r.toModel = B.name) ∨
        (r.fromModel = B.name ∧ r.toModel = A.name))
      = (extractRelationships models).countP
        (fun r => relKeyOf r = sortPairKey A.name B.name) := by
    apply countP_congr_mem
    intro r hr
    exact decide_eq_decide.mpr (hpt r hr)
  rw [hcong, countP_keyOf]
  have hle : ((extractRelationships models).map relKeyOf).count (sortPairKey A.name B.name) ≤ 1 :=
    (List.nodup_iff_count_le_one.mp hInv.2) _
  have hge : 0 < ((extractRelationships models).map relKeyOf).count (sortPairKey A.name B.name) := by
    apply List.count_pos_iff.mpr
    apply (hInv.1 _).mp
    have := foldl_seen_of_mem models (modelFieldPairs models) ([], []) A fA
      (List.mem_flatMap.mpr ⟨A, hA, List.mem_map.mpr ⟨fA, hfA, rfl⟩⟩) hfArel
    rw [hfAty] at this
    exact this
  omega

/-- Concrete instantiation of `relationship_dedup` at a two-model schema with
relation fields in both directions. -/
theorem relationship_dedup_witness :
    (extractRelationships
      [⟨"User", [⟨"id", "String", false, false, false⟩, ⟨"posts", "Post", true, false, true⟩]⟩,
       ⟨"Post", [⟨"id", "String", false, false, false⟩, ⟨"author", "User", true, false, false⟩]⟩]).countP
      (fun r => (r.fromModel = "User" ∧ r.toModel = "Post") ∨
        (r.fromModel = "Post" ∧ r.toModel = "User")) = 1 :=
  relationship_dedup
    [⟨"User", [⟨"id", "String", false, false, false⟩, ⟨"posts", "Post", true, false, true⟩]⟩,
     ⟨"Post", [⟨"id", "String", false, false, false⟩, ⟨"author", "User", true, false, false⟩]⟩]
    (by decide) (by decide)
    ⟨"User", [⟨"id", "String", false, false, false⟩, ⟨"posts", "Post", true, false, true⟩]⟩
    ⟨"Post", [⟨"id", "String", false, false, false⟩, ⟨"author", "User", true, false, false⟩]⟩
    (by simp) (by simp)
    ⟨"posts", "Post", true, false, true⟩ (by simp) rfl rfl
    ⟨"author", "User", true, false, false⟩ (by simp) rfl rfl

/-- C4: end-to-end scenario B — a schema declaring `User` with `posts Post[]`
and `Post` with `author User` parses to exactly one relationship record, from
`User` to `Post`, cardinality one-to-many, field name `posts`. -/
theorem scenarioB_one_to_many :
    (analyzeModelsCore
        "model User \x7b\n  id String\n  posts Post[]\n\x7d\nmodel Post \x7b\n  id String\n  author User\n\x7d").2
      = [{ fromModel := "User", toModel := "Post", type := "one-to-many",
           fieldName := "posts" }] := by
  decide

theorem upsert_inv (processed : List ComponentInfo) (m : List (String × Nat))
    (c : ComponentInfo) (h : DirInv processed m) :
    DirInv (processed ++ [c]) (upsertCount m c.directory) := by
  obtain ⟨hnd, hcount, hmem⟩ := h
  unfold upsertCount
  split_ifs with hany
  · refine ⟨?_, ?_, ?_⟩
    · have : (m.map (fun p => if p.1 = c.directory then (p.1, p.2 + 1) else p)).map Prod.fst
          = m.map Prod.fst := by
        rw [List.map_map]
        apply List.map_congr_left
        intro p _
        by_cases hp : p.1 = c.directory <;> simp [hp]
      rw [this]
      exact hnd
    · intro p' hp'
      rcases List.mem_map.mp hp' with ⟨p, hp, hpe⟩
      by_cases hpc : p.1 = c.directory
      · simp only [hpc, if_true] at hpe
        rw [← hpe]
        simp only [List.countP_append, List.countP_cons, List.countP_nil]
        have hc : (fun x : ComponentInfo => decide (x.directory = p.1)) c = true := by
          simp [hpc]
        simp only [hpc] at hc ⊢
        rw [hcount p hp]
        simp [hpc]
      · simp only [hpc, if_false] at hpe
        rw [← hpe]
        simp only [List.countP_append, List.countP_cons, List.countP_nil]
        rw [hcount p hp]
        have : ¬ (c.directory = p.1) := fun he => hpc he.symm
        simp [this]
    · intro c' hc'
      rcases List.mem_append.mp hc' with hc2 | hc2
      · rcases hmem c' hc2 with ⟨p, hp, hpe⟩
        refine ⟨if p.1 = c.directory then (p.1, p.2 + 1) else p, List.mem_map_of_mem _ hp, ?_⟩
        by_cases hpc : p.1 = c.directory
        · rw [if_pos hpc]
          exact hpe
        · rw [if_neg hpc]
          exact hpe
      · rw [List.mem_singleton.mp hc2]
        rcases List.any_eq_true.mp hany with ⟨p, hp, hpd⟩
        have hpc : p.1 = c.directory := of_decide_eq_true hpd
        refine ⟨(p.1, p.2 + 1), List.mem_map.mpr ⟨p, hp, by rw [if_pos hpc]⟩, hpc⟩
  · refine ⟨?_, ?_, ?_⟩
    · rw [List.map_append]
      refine List.Nodup.append hnd (by simp) ?_
      intro k hk hk2
      simp only [List.map_cons, List.map_nil, List.mem_singleton] at hk2
      subst hk2
      rcases List.mem_map.mp hk with ⟨p, hp, hpe⟩
      exact hany (List.any_eq_true.mpr ⟨p, hp, decide_eq_true hpe⟩)
    · intro p hp
      rcases List.mem_append.mp hp with hp2 | hp2
      · have hne : p.1 ≠ c.directory := by
          intro he
          exact hany (List.any_eq_true.mpr ⟨p, hp2, decide_eq_true he⟩)
        rw [hcount p hp2]
        simp only [List.countP_append, List.countP_cons, List.countP_nil]
        have : ¬ (c.directory = p.1) := fun he => hne he.symm
        simp [this]
      · rw [List.mem_singleton.mp hp2]
        simp only [List.countP_append, List.countP_cons, List.countP_nil]
        have hzero : processed.countP (fun x => decide (x.directory = c.directory)) = 0 := by
          apply List.countP_eq_zero.mpr
          intro c' hc'
          simp only [decide_eq_true_eq]
          intro he
          rcases hmem c' hc' with ⟨p', hp', hpe⟩
          exact hany (List.any_eq_true.mpr ⟨p', hp', decide_eq_true (hpe.trans he)⟩)
        rw [hzero]
        simp [List.countP_cons, List.countP_nil]
    · intro c' hc'
      rcases List.mem_append.mp hc' with hc2 | hc2
      · rcases hmem c' hc2 with ⟨p, hp, hpe⟩
        exact ⟨p, List.mem_append_left _ hp, hpe⟩
      · rw [List.mem_singleton.mp hc2]
        exact ⟨(c.directory, 1), List.mem_append_right _ (by simp), rfl⟩

theorem foldl_dir_inv (rest : List ComponentInfo) (processed : List ComponentInfo)
    (m : List (String × Nat)) (h : DirInv processed m) :
    DirInv (processed ++ rest) (rest.foldl (fun m c => upsertCount m c.directory) m) := by
  induction rest generalizing processed m with
  | nil => simpa using h
  | cons c cs ih =>
    have h2 := ih (processed ++ [c]) (upsertCount m c.directory) (upsert_inv processed m c h)
    rw [List.foldl_cons, List.append_cons]
    exact h2

theorem countP_fst_eq_count (m : List (String × Nat)) (k : String) :
    m.countP (fun p => p.1 = k) = (m.map Prod.fst).count k := by
  induction m with
  | nil => rfl
  | cons p ps ih =>
    by_cases hk : p.1 = k
    · simp [List.countP_cons, List.count_cons, hk, ih]
    · simp [List.countP_cons, List.count_cons, hk, ih, Ne.symm hk]

/-- C10: the directory summary produced by the component pass is consistent
with the component list — each `DirectoryInfo` counts exactly the components
whose `directory` equals its `path`, and each component's directory appears
as the path of exactly one `DirectoryInfo` (analyzer.ts lines 207-253). -/
theorem directory_summary_consistent (files : List (List String × String)) :
    (∀ d ∈ (analyzeComponentsCore files).2,
        d.componentCount = ((analyzeComponentsCore files).1.filter
          (fun c => c.directory = d.path)).length)
    ∧ ∀ c ∈ (analyzeComponentsCore files).1,
        ((analyzeComponentsCore files).2.filter (fun d => d.path = c.directory)).length = 1 := by
  have hinv : DirInv (files.map (fun f => mkComponentInfo f.1 f.2))
      ((files.map (fun f => mkComponentInfo f.1 f.2)).foldl
        (fun m c => upsertCount m c.directory) []) := by
    have := foldl_dir_inv (files.map (fun f => mkComponentInfo f.1 f.2)) [] []
      ⟨by simp, by simp, by simp⟩
    simpa using this
  obtain ⟨hnd, hcount, hmem⟩ := hinv
  have hpermC : List.Perm ((analyzeComponentsCore files).1)
      (files.map (fun f => mkComponentInfo f.1 f.2)) := List.perm_insertionSort _ _
  have hpermD : List.Perm ((analyzeComponentsCore files).2)
      (((files.map (fun f => mkComponentInfo f.1 f.2)).foldl
          (fun m c => upsertCount m c.directory) []).map
        (fun p => DirectoryInfo.mk p.1 (getDirectoryLabel p.1) p.2)) :=
    List.perm_insertionSort _ _
  constructor
  · intro d hd
    have hd2 := hpermD.mem_iff.mp hd
    rcases List.mem_map.mp hd2 with ⟨p, hp, hpe⟩
    have h1 : ((analyzeComponentsCore files).1.filter (fun c => c.directory = d.path)).length
        = (files.map (fun f => mkComponentInfo f.1 f.2)).countP
          (fun c => c.directory = d.path) := by
      rw [← List.countP_eq_length_filter]
      exact hpermC.countP_eq _
    rw [h1]
    have hdp : d.path = p.1 := by rw [← hpe]
    have hdc : d.componentCount = p.2 := by rw [← hpe]
    rw [hdc, hdp]
    exact hcount p hp
  · intro c hc
    have hc2 := hpermC.mem_iff.mp hc
    have h1 : ((analyzeComponentsCore files).2.filter (fun d => d.path = c.directory)).length
        = (((files.map (fun f => mkComponentInfo f.1 f.2)).foldl
              (fun m c => upsertCount m c.directory) []).map
            (fun p => DirectoryInfo.mk p.1 (getDirectoryLabel p.1) p.2)).countP
          (fun d => d.path = c.directory) := by
      rw [← List.countP_eq_length_filter]
      exact hpermD.countP_eq _
    rw [h1, List.countP_map]
    have h2 : ((fun d : DirectoryInfo => decide (d.path = c.directory)) ∘
          (fun p : String × Nat => DirectoryInfo.mk p.1 (getDirectoryLabel p.1) p.2))
        = fun p : String × Nat => decide (p.1 = c.directory) := rfl
    rw [h2]
    have h3 : ((files.map (fun f => mkComponentInfo f.1 f.2)).foldl
          (fun m c => upsertCount m c.directory) []).countP
        (fun p => p.1 = c.directory)
        = (((files.map (fun f => mkComponentInfo f.1 f.2)).foldl
            (fun m c => upsertCount m c.directory) []).map Prod.fst).count c.directory :=
      countP_fst_eq_count _ _
    rw [h3]
    apply List.count_eq_one_of_mem hnd
    rcases hmem c hc2 with ⟨p, hp, hpe⟩
    exact List.mem_map.mpr ⟨p, hp, hpe⟩

theorem splitOnChar_cons_ne (sep c : Char) (cs : List Char) (hc : ¬ c = sep) :
    splitOnChar sep (c :: cs) = match splitOnChar sep cs with
      | [] => [[c]]
      | w :: ws => (c :: w) :: ws := by
  rw [splitOnChar, if_neg hc]

theorem splitOnChar_length (sep : Char) (s : List Char) :
    (splitOnChar sep s).length = s.count sep + 1 := by
  induction s with
  | nil => rfl
  | cons c cs ih =>
    by_cases hc : c = sep
    · simp [splitOnChar, hc, ih, List.count_cons]
    · rw [splitOnChar_cons_ne sep c cs hc]
      cases hs : splitOnChar sep cs with
      | nil =>
        rw [hs] at ih
        simp only [List.length_nil] at ih
        exfalso
        omega
      | cons w ws =>
        rw [hs] at ih
        simp only [List.length_cons] at ih
        show ((c :: w) :: ws).length = List.count sep (c :: cs) + 1
        simp only [List.length_cons, List.count_cons, beq_iff_eq, hc, if_false]
        omega

/-- The component pass miscounts by the claimed measure in a specific way:
for the file `A.tsx` with content `a\nb` (one newline) the emitted record has
`linesOfCode = 2`, not the newline count 1, refuting "lineCount equals the
number of newline characters". -/
theorem lineCount_counterexample :
    ¬ ∀ r ∈ (analyzeComponentsCore [(["A.tsx"], "a\nb")]).1,
        r.linesOfCode = ("a\nb" : String).data.count '\n' := by
  decide

/-- Amended C7: every component record's `linesOfCode` equals the number of
newline characters in its file's content plus one (`split("\n").length`,
analyzer.ts lines 198-200 and 228). -/
theorem lineCount_newlines_succ (files : List (List String × String)) :
    ∀ r ∈ (analyzeComponentsCore files).1, ∃ f ∈ files,
      r.path = String.intercalate "/" f.1 ∧
      r.linesOfCode = f.2.data.count '\n' + 1 := by
  intro r hr
  have hperm : List.Perm ((analyzeComponentsCore files).1)
      (files.map (fun f => mkComponentInfo f.1 f.2)) := List.perm_insertionSort _ _
  have hr2 := hperm.mem_iff.mp hr
  rcases List.mem_map.mp hr2 with ⟨f, hf, rfl⟩
  exact ⟨f, hf, rfl, splitOnChar_length '\n' f.2.data⟩

theorem arrow_concat_inj (a b c d : List Char) (ha : '>' ∉ a) (hc : '>' ∉ c)
    (h : a ++ '-' :: '>' :: b = c ++ '-' :: '>' :: d) : a = c ∧ b = d := by
  induction a generalizing c with
  | nil =>
    cases c with
    | nil => simpa using h
    | cons y c2 =>
      simp only [List.nil_append, List.cons_append, List.cons.injEq] at h
      cases c2 with
      | nil =>
        simp only [List.nil_append, List.cons.injEq] at h
        exact absurd h.2.1.symm (by decide)
      | cons z c3 =>
        simp only [List.cons_append, List.cons.injEq] at h
        exfalso
        apply hc
        rw [← h.2.1]
        exact List.mem_cons_of_mem _ (List.mem_cons_self _ _)
  | cons x a2 ih =>
    cases c with
    | nil =>
      simp only [List.cons_append, List.nil_append, List.cons.injEq] at h
      cases a2 with
      | nil =>
        simp only [List.nil_append, List.cons.injEq] at h
        exact absurd h.2.1 (by decide)
      | cons z a3 =>
        simp only [List.cons_append, List.cons.injEq] at h
        exfalso
        apply ha
        rw [h.2.1]
        exact List.mem_cons_of_mem _ (List.mem_cons_self _ _)
    | cons y c2 =>
      simp only [List.cons_append, List.cons.injEq] at h
      have ha2 : '>' ∉ a2 := fun hx => ha (List.mem_cons_of_mem x hx)
      have hc2 : '>' ∉ c2 := fun hx => hc (List.mem_cons_of_mem y hx)
      obtain ⟨e1, e2⟩ := ih c2 ha2 hc2 h.2
      exact ⟨by rw [h.1, e1], e2⟩

theorem edgeKey_inj (e1 e2 : EdgeInfo)
    (h1 : ('>' : Char) ∉ e1.source.data) (h2 : ('>' : Char) ∉ e2.source.data)
    (h : edgeKey e1 = edgeKey e2) : e1 = e2 := by
  have hd := congrArg String.data h
  simp only [edgeKey, String.data_append, List.append_assoc] at hd
  obtain ⟨hs, ht⟩ := arrow_concat_inj e1.source.data e1.target.data
    e2.source.data e2.target.data h1 h2 hd
  cases e1 with
  | mk s1 t1 =>
    cases e2 with
    | mk s2 t2 =>
      simp only at hs ht
      cases s1
      cases s2
      cases t1
      cases t2
      rw [congrArg String.mk hs, congrArg String.mk ht]

theorem jsMapInsert_inv (processed : List EdgeInfo) (m : List (String × EdgeInfo))
    (e : EdgeInfo) (h : EdgeMapInv processed m) :
    EdgeMapInv (processed ++ [e]) (jsMapInsert m (edgeKey e) e) := by
  obtain ⟨hnd, hkey, hval, hmem⟩ := h
  unfold jsMapInsert
  split_ifs with hany
  · refine ⟨?_, ?_, ?_, ?_⟩
    · have heq : (m.map (fun p => if p.1 = edgeKey e then (edgeKey e, e) else p)).map Prod.fst
          = m.map Prod.fst := by
        rw [List.map_map]
        apply List.map_congr_left
        intro p _
        by_cases hp : p.1 = edgeKey e <;> simp [hp]
      rw [heq]
      exact hnd
    · intro p' hp'
      rcases List.mem_map.mp hp' with ⟨p, hp, hpe⟩
      by_cases hpc : p.1 = edgeKey e
      · rw [← hpe]
        simp [hpc]
      · rw [← hpe]
        simp only [hpc, if_false]
        exact hkey p hp
    · intro p' hp'
      rcases List.mem_map.mp hp' with ⟨p, hp, hpe⟩
      by_cases hpc : p.1 = edgeKey e
      · rw [← hpe]
        simp only [hpc, if_true]
        exact List.mem_append_right _ (by simp)
      · rw [← hpe]
        simp only [hpc, if_false]
        exact List.mem_append_left _ (hval p hp)
    · intro e' he'
      rcases List.mem_append.mp he' with he2 | he2
      · rcases hmem e' he2 with ⟨p, hp, hpe⟩
        refine ⟨if p.1 = edgeKey e then (edgeKey e, e) else p, List.mem_map_of_mem _ hp, ?_⟩
        by_cases hpc : p.1 = edgeKey e
        · rw [if_pos hpc, ← hpc]
          exact hpe
        · rw [if_neg hpc]
          exact hpe
      · rw [List.mem_singleton.mp he2]
        rcases List.any_eq_true.mp hany with ⟨p, hp, hpd⟩
        have hpc : p.1 = edgeKey e := of_decide_eq_true hpd
        exact ⟨(edgeKey e, e), List.mem_map.mpr ⟨p, hp, by rw [if_pos hpc]⟩, rfl⟩
  · refine ⟨?_, ?_, ?_, ?_⟩
    · rw [List.map_append]
      refine List.Nodup.append hnd (by simp) ?_
      intro k hk hk2
      simp only [List.map_cons, List.map_nil, List.mem_singleton] at hk2
      subst hk2
      rcases List.mem_map.mp hk with ⟨p, hp, hpe⟩
      exact hany (List.any_eq_true.mpr ⟨p, hp, decide_eq_true hpe⟩)
    · intro p hp
      rcases List.mem_append.mp hp with hp2 | hp2
      · exact hkey p hp2
      · rw [List.mem_singleton.mp hp2]
    · intro p hp
      rcases List.mem_append.mp hp with hp2 | hp2
      · exact List.mem_append_left _ (hval p hp2)
      · rw [List.mem_singleton.mp hp2]
        exact List.mem_append_right _ (by simp)
    · intro e' he'
      rcases List.mem_append.mp he' with he2 | he2
      · rcases hmem e' he2 with ⟨p, hp, hpe⟩
        exact ⟨p, List.mem_append_left _ hp, hpe⟩
      · rw [List.mem_singleton.mp he2]
        exact ⟨(edgeKey e, e), List.mem_append_right _ (by simp), rfl⟩

theorem foldl_edge_inv (l : List EdgeInfo) (processed : List EdgeInfo)
    (m : List (String × EdgeInfo)) (h : EdgeMapInv processed m) :
    EdgeMapInv (processed ++ l) (l.foldl (fun m e => jsMapInsert m (edgeKey e) e) m) := by
  induction l generalizing processed m with
  | nil => simpa using h
  | cons e es ih =>
    have h2 := ih (processed ++ [e]) (jsMapInsert m (edgeKey e) e) (jsMapInsert_inv processed m e h)
    rw [List.foldl_cons, List.append_cons]
    exact h2

theorem edgeMapInv_full (l : List EdgeInfo) :
    EdgeMapInv l (l.foldl (fun m e => jsMapInsert m (edgeKey e) e) []) := by
  have := foldl_edge_inv l [] [] ⟨by simp, by simp, by simp, by simp⟩
  simpa using this

theorem mem_dedupEdges (l : List EdgeInfo)
    (hinj : ∀ e1 ∈ l, ∀ e2 ∈ l, edgeKey e1 = edgeKey e2 → e1 = e2) (e : EdgeInfo) :
    e ∈ dedupEdges l ↔ e ∈ l := by
  obtain ⟨hnd, hkey, hval, hmem⟩ := edgeMapInv_full l
  unfold dedupEdges
  constructor
  · intro he
    rcases List.mem_map.mp he with ⟨p, hp, hpe⟩
    rw [← hpe]
    exact hval p hp
  · intro he
    rcases hmem e he with ⟨p, hp, hpe⟩
    have hpv : p.2 ∈ l := hval p hp
    have : edgeKey p.2 = edgeKey e := by
      rw [← hkey p hp, hpe]
    have hpv2 : p.2 = e := hinj p.2 hpv e he this
    exact List.mem_map.mpr ⟨p, hp, hpv2⟩

theorem dedupEdges_nodup (l : List EdgeInfo) : (dedupEdges l).Nodup := by
  obtain ⟨hnd, hkey, _, _⟩ := edgeMapInv_full l
  unfold dedupEdges
  have hmnd : (l.foldl (fun m e => jsMapInsert m (edgeKey e) e) []).Nodup :=
    List.Nodup.of_map Prod.fst hnd
  apply List.Nodup.map_on ?_ hmnd
  intro p1 hp1 p2 hp2 hsnd
  have hk1 := hkey p1 hp1
  have hk2 := hkey p2 hp2
  have hfst : p1.1 = p2.1 := by rw [hk1, hk2, hsnd]
  have hnodup2 := hnd
  have : p1 = p2 := by
    rcases p1 with ⟨k1, v1⟩
    rcases p2 with ⟨k2, v2⟩
    simp only at hfst hsnd
    rw [hfst, hsnd]
  exact this

theorem edgeFromSpec_eq_some_iff (isFile : List String → Bool)
    (srcPaths : List (List String)) (sourceId : String) (fromFile : List String)
    (spec : String) (s t : String) :
    edgeFromSpec isFile srcPaths sourceId fromFile spec = some (EdgeInfo.mk s t) ↔
      sourceId = s ∧ t ≠ "" ∧ t ≠ sourceId ∧
        ∃ r, resolveImportPath spec fromFile isFile = some r ∧ r ∈ srcPaths ∧
          nodeIdOfRel r = t := by
  unfold edgeFromSpec nodeMapGet
  cases hres : resolveImportPath spec fromFile isFile with
  | none => simp
  | some resolved =>
    simp only [Option.some_bind]
    by_cases hmem : resolved ∈ srcPaths
    · rw [if_pos hmem]
      simp only [Option.some_bind]
      by_cases hcond : nodeIdOfRel resolved ≠ "" ∧ nodeIdOfRel resolved ≠ sourceId
      · rw [if_pos hcond]
        constructor
        · intro he
          have he2 := Option.some.inj he
          have hs : sourceId = s := congrArg EdgeInfo.source he2
          have ht : nodeIdOfRel resolved = t := congrArg EdgeInfo.target he2
          refine ⟨hs, ?_, ?_, resolved, rfl, hmem, ht⟩
          · rw [← ht]
            exact hcond.1
          · rw [← ht]
            exact hcond.2
        · rintro ⟨rfl, hne, hnz, r, hr, hrmem, hrt⟩
          have hre : resolved = r := Option.some.inj hr
          subst hre
          rw [hrt]
      · rw [if_neg hcond]
        constructor
        · intro he
          simp at he
        · rintro ⟨rfl, hne, hnz, r, hr, hrmem, hrt⟩
          have hre : resolved = r := Option.some.inj hr
          subst hre
          refine absurd ⟨?_, ?_⟩ hcond
          · rw [hrt]
            exact hne
          · rw [hrt]
            exact hnz
    · rw [if_neg hmem]
      simp only [Option.none_bind]
      constructor
      · intro he
        simp at he
      · rintro ⟨rfl, hne, hnz, r, hr, hrmem, hrt⟩
        have hre : resolved = r := Option.some.inj hr
        subst hre
        exact absurd hrmem hmem

theorem nodeMapGet_eq_some_iff (srcPaths : List (List String)) (p : List String)
    (i : String) : nodeMapGet srcPaths p = some i ↔ p ∈ srcPaths ∧ nodeIdOfRel p = i := by
  unfold nodeMapGet
  split_ifs with h <;> simp [h]

theorem nodeMapGet_eq_none_iff (srcPaths : List (List String)) (p : List String) :
    nodeMapGet srcPaths p = none ↔ p ∉ srcPaths := by
  unfold nodeMapGet
  split_ifs with h <;> simp [h]

theorem mem_edgesFor (isFile : List String → Bool) (srcPaths : List (List String))
    (file : List String × String) (s t : String) :
    EdgeInfo.mk s t ∈ edgesFor isFile srcPaths file ↔
      file.1 ∈ srcPaths ∧ nodeIdOfRel file.1 = s ∧ s ≠ "" ∧ t ≠ "" ∧ t ≠ s ∧
        ∃ spec ∈ extractImports file.2, ∃ r,
          resolveImportPath spec file.1 isFile = some r ∧ r ∈ srcPaths ∧
          nodeIdOfRel r = t := by
  unfold edgesFor
  cases hget : nodeMapGet srcPaths file.1 with
  | none =>
    have hnm := (nodeMapGet_eq_none_iff srcPaths file.1).mp hget
    simp [hnm]
  | some sourceId =>
    obtain ⟨hmem, hid⟩ := (nodeMapGet_eq_some_iff srcPaths file.1 sourceId).mp hget
    have hred : (match some sourceId with
        | none => ([] : List EdgeInfo)
        | some sourceId => if sourceId = "" then []
          else List.filterMap (edgeFromSpec isFile srcPaths sourceId file.1)
            (extractImports file.2))
        = if sourceId = "" then []
          else List.filterMap (edgeFromSpec isFile srcPaths sourceId file.1)
            (extractImports file.2) := rfl
    rw [hred]
    by_cases hz : sourceId = ""
    · rw [if_pos hz]
      simp only [List.not_mem_nil, false_iff]
      rintro ⟨h1, h2, h3, _⟩
      exact h3 (h2.symm.trans (hid.trans hz))
    · rw [if_neg hz]
      rw [List.mem_filterMap]
      constructor
      · rintro ⟨spec, hspec, hedge⟩
        obtain ⟨hs, ht1, ht2, r, hr1, hr2, hr3⟩ :=
          (edgeFromSpec_eq_some_iff isFile srcPaths sourceId file.1 spec s t).mp hedge
        refine ⟨hmem, hid.trans hs, ?_, ht1, ?_, spec, hspec, r, hr1, hr2, hr3⟩
        · rw [← hs]
          exact hz
        · rw [← hs]
          exact ht2
      · rintro ⟨_, hids, hsne, htne, htns, spec, hspec, r, hr1, hr2, hr3⟩
        refine ⟨spec, hspec, (edgeFromSpec_eq_some_iff isFile srcPaths sourceId
          file.1 spec s t).mpr ⟨hid.symm.trans hids, htne, ?_, r, hr1, hr2, hr3⟩⟩
        rw [hid.symm.trans hids]
        exact htns

/-- Amended C2: in the deduplicated edge list, an edge `(s, t)` exists iff
some discovered file `X` whose derived id is `s` contains a relative or
alias-rooted import that resolves (literal path, extension probing, index
files) to a discovered file `Y` whose derived id is `t`, with `s ≠ t` — the
code compares node ids, not files, so an import between distinct files whose
ids collide yields no edge (see `import_graph_id_collision`); and no two
edges share the same ordered `(source, target)` pair.  The hypotheses record
that node ids contain no `>` (so the string dedup key `` `s->t` `` is
unambiguous) and are non-empty (the code's truthiness guards). -/
theorem import_graph_edges (allFiles : List (List String))
    (srcs : List (List String × String))
    (hgt : ∀ f ∈ srcs, ('>' : Char) ∉ (nodeIdOfRel f.1).data)
    (hne : ∀ f ∈ srcs, nodeIdOfRel f.1 ≠ "") :
    (∀ s t, EdgeInfo.mk s t ∈ analyzeDependenciesEdges allFiles srcs ↔
      ∃ X ∈ srcs, ∃ Y ∈ srcs, nodeIdOfRel X.1 = s ∧ nodeIdOfRel Y.1 = t ∧ s ≠ t ∧
        ∃ spec ∈ extractImports X.2,
          resolveImportPath spec X.1 (fun p => allFiles.contains p) = some Y.1)
    ∧ (analyzeDependenciesEdges allFiles srcs).Nodup := by
  have hshape : ∀ e ∈ srcs.flatMap (edgesFor (fun p => allFiles.contains p)
      (srcs.map Prod.fst)), ('>' : Char) ∉ e.source.data := by
    intro e he
    rcases List.mem_flatMap.mp he with ⟨X, hX, heX⟩
    have : EdgeInfo.mk e.source e.target ∈ edgesFor (fun p => allFiles.contains p)
        (srcs.map Prod.fst) X := heX
    obtain ⟨_, hXid, _⟩ := (mem_edgesFor _ _ X e.source e.target).mp this
    rw [← hXid]
    exact hgt X hX
  have hinj : ∀ e1 ∈ srcs.flatMap (edgesFor (fun p => allFiles.contains p)
        (srcs.map Prod.fst)),
      ∀ e2 ∈ srcs.flatMap (edgesFor (fun p => allFiles.contains p) (srcs.map Prod.fst)),
      edgeKey e1 = edgeKey e2 → e1 = e2 :=
    fun e1 he1 e2 he2 hk => edgeKey_inj e1 e2 (hshape e1 he1) (hshape e2 he2) hk
  constructor
  · intro s t
    unfold analyzeDependenciesEdges
    rw [mem_dedupEdges _ hinj, List.mem_flatMap]
    constructor
    · rintro ⟨X, hX, hmemEdge⟩
      obtain ⟨hXmem, hXid, hsne, htne, htns, spec, hspec, r, hres, hrmem, hrid⟩ :=
        (mem_edgesFor _ _ X s t).mp hmemEdge
      rcases List.mem_map.mp hrmem with ⟨Y, hY, hYe⟩
      refine ⟨X, hX, Y, hY, hXid, ?_, Ne.symm htns, spec, hspec, ?_⟩
      · rw [hYe]
        exact hrid
      · rw [hYe]
        exact hres
    · rintro ⟨X, hX, Y, hY, hXid, hYid, hst, spec, hspec, hres⟩
      refine ⟨X, hX, (mem_edgesFor _ _ X s t).mpr
        ⟨List.mem_map_of_mem Prod.fst hX, hXid, ?_, ?_, Ne.symm hst, spec, hspec,
          Y.1, hres, List.mem_map_of_mem Prod.fst hY, hYid⟩⟩
      · rw [← hXid]
        exact hne X hX
      · rw [← hYid]
        exact hne Y hY
  · exact dedupEdges_nodup _

/-- The original C2 fails on id collisions: `a.ts` imports `./a.js`, and
that import resolves to the distinct discovered file `a.js`, yet no edge is
emitted because both files derive the node id `a` and the code drops edges
whose endpoint ids coincide. -/
theorem import_graph_id_collision :
    analyzeDependenciesEdges [["a.ts"], ["a.js"]]
        [(["a.ts"], "import \"./a.js\""), (["a.js"], "x")] = []
    ∧ "./a.js" ∈ extractImports "import \"./a.js\""
    ∧ resolveImportPath "./a.js" ["a.ts"]
        (fun p => [(["a.ts"] : List String), ["a.js"]].contains p) = some ["a.js"]
    ∧ (["a.ts"] : List String) ≠ ["a.js"] := by
  decide

/-- Concrete instantiation of `import_graph_edges`: `lib/foo.ts` imports the
alias path `@/lib/bar`, which probe-resolves to `lib/bar.ts`. -/
theorem import_graph_edges_witness :
    (∀ s t, EdgeInfo.mk s t ∈ analyzeDependenciesEdges
        [["lib", "foo.ts"], ["lib", "bar.ts"]]
        [(["lib", "foo.ts"], "import \"@/lib/bar\""), (["lib", "bar.ts"], "x")] ↔
      ∃ X ∈ [(["lib", "foo.ts"], "import \"@/lib/bar\""), (["lib", "bar.ts"], "x")],
        ∃ Y ∈ [(["lib", "foo.ts"], "import \"@/lib/bar\""), (["lib", "bar.ts"], "x")],
          nodeIdOfRel X.1 = s ∧ nodeIdOfRel Y.1 = t ∧ s ≠ t ∧
            ∃ spec ∈ extractImports X.2,
              resolveImportPath spec X.1
                (fun p => [(["lib", "foo.ts"] : List String),
                  ["lib", "bar.ts"]].contains p) = some Y.1)
    ∧ (analyzeDependenciesEdges [["lib", "foo.ts"], ["lib", "bar.ts"]]
        [(["lib", "foo.ts"], "import \"@/lib/bar\""), (["lib", "bar.ts"], "x")]).Nodup :=
  import_graph_edges [["lib", "foo.ts"], ["lib", "bar.ts"]]
    [(["lib", "foo.ts"], "import \"@/lib/bar\""), (["lib", "bar.ts"], "x")]
    (by decide) (by decide)

/-- C9: the full analysis is a deterministic function of the filesystem
tree — two runs differing only in the clock value agree on every sub-result
once the `generatedAt` timestamps are erased. -/
theorem analysis_deterministic (root : FsList) (name t1 t2 : String) :
    (analyzeCodebaseFs root name t1).map stripTimes
      = (analyzeCodebaseFs root name t2).map stripTimes := by
  unfold analyzeCodebaseFs
  cases hR : analyzeRoutesFs root with
  | error e => rfl
  | ok routes =>
    cases hC : analyzeComponentsFs root with
    | error e => rfl
    | ok comps =>
      cases hM : analyzeModelsFs root with
      | none => simp [stripTimes, apply_ite, Except.map]
      | some mr => simp [stripTimes, apply_ite, Except.map]

/-- Application of `analysis_deterministic` at a concrete tree and two
distinct clock values. -/
theorem analysis_deterministic_witness :
    (analyzeCodebaseFs readmeOnlyFs "proj" "2024-01-01").map stripTimes
      = (analyzeCodebaseFs readmeOnlyFs "proj" "2025-06-30").map stripTimes :=
  analysis_deterministic readmeOnlyFs "proj" "2024-01-01" "2025-06-30"

/-- The original C8 fails: in a project with no API directory, no component
directory and no schema file, where the candidate path `pages/api` exists as
a regular file, `findApiRoutes` calls `readdirSync` on that file (the guard
is only `existsSync`) and the analysis throws instead of returning nulls. -/
theorem readdir_throws_on_file_candidate :
    analyzeCodebaseFs pagesApiFileFs "proj" "ts" = Except.error ()
    ∧ isDirPath pagesApiFileFs ["app", "api"] = false
    ∧ isDirPath pagesApiFileFs ["src", "app", "api"] = false
    ∧ isDirPath pagesApiFileFs ["pages", "api"] = false
    ∧ isDirPath pagesApiFileFs ["src", "pages", "api"] = false
    ∧ isDirPath pagesApiFileFs ["components"] = false
    ∧ isDirPath pagesApiFileFs ["src", "components"] = false
    ∧ isDirPath pagesApiFileFs ["app"] = false
    ∧ isDirPath pagesApiFileFs ["src", "app"] = false
    ∧ isFilePath pagesApiFileFs ["prisma", "schema.prisma"] = false
    ∧ isFilePath pagesApiFileFs ["schema.prisma"] = false
    ∧ isFilePath pagesApiFileFs ["prisma", "schema", "schema.prisma"] = false := by
  decide

/-- Amended C8: when none of the conventional API-directory and
component-directory candidate paths exists at all (as directory or file) and
no conventional schema path is a regular file, the analysis returns
successfully with `routes`, `components` and `models` all `null`.  (The
strengthening from "no API/component directory" to "no entry at those paths"
is forced by `readdir_throws_on_file_candidate`: a regular file at a
candidate path makes the analysis throw.) -/
theorem absence_yields_nulls (root : FsList) (name ts : String)
    (h1 : lookupEntry root ["app", "api"] = none)
    (h2 : lookupEntry root ["src", "app", "api"] = none)
    (h3 : lookupEntry root ["pages", "api"] = none)
    (h4 : lookupEntry root ["src", "pages", "api"] = none)
    (h5 : lookupEntry root ["components"] = none)
    (h6 : lookupEntry root ["src", "components"] = none)
    (h7 : lookupEntry root ["app"] = none)
    (h8 : lookupEntry root ["src", "app"] = none)
    (h9 : isFilePath root ["prisma", "schema.prisma"] = false)
    (h10 : isFilePath root ["schema.prisma"] = false)
    (h11 : isFilePath root ["prisma", "schema", "schema.prisma"] = false) :
    (analyzeCodebaseFs root name ts).map (fun r => (r.routes, r.components, r.models))
      = Except.ok (none, none, none) := by
  have hroutes : analyzeRoutesFs root = .ok [] := by
    unfold analyzeRoutesFs findApiRoutesAt
    rw [h1, h2, h3, h4]
    rfl
  have hcomps : analyzeComponentsFs root = .ok ([], []) := by
    unfold analyzeComponentsFs findComponentFilesAt
    rw [h5, h6, h7, h8]
    rfl
  have hmodels : analyzeModelsFs root = none := by
    unfold analyzeModelsFs
    cases hF : findPrismaSchemaAt root with
    | none => rfl
    | some p =>
      have hpm : p ∈ PRISMA_SCHEMA_PATHS := List.mem_of_find?_eq_some hF
      have hread : readFileAt root p = none := by
        unfold readFileAt
        cases hl : lookupEntry root p with
        | none => rfl
        | some e =>
          cases e with
          | dir n es => rfl
          | file n c =>
            exfalso
            have hfp : isFilePath root p = true := by
              unfold isFilePath
              rw [hl]
            simp only [PRISMA_SCHEMA_PATHS, List.mem_cons, List.not_mem_nil, or_false] at hpm
            rcases hpm with rfl | rfl | rfl
            · rw [h9] at hfp
              exact Bool.noConfusion hfp
            · rw [h10] at hfp
              exact Bool.noConfusion hfp
            · rw [h11] at hfp
              exact Bool.noConfusion hfp
      simp only [Option.some_bind]
      rw [hread]
      rfl
  unfold analyzeCodebaseFs
  rw [hroutes, hcomps, hmodels]
  rfl

/-- Application of `absence_yields_nulls` to a README-only project. -/
theorem absence_yields_nulls_witness :
    (analyzeCodebaseFs readmeOnlyFs "proj" "ts").map
        (fun r => (r.routes, r.components, r.models)) = Except.ok (none, none, none) :=
  absence_yields_nulls readmeOnlyFs "proj" "ts" rfl rfl rfl rfl rfl rfl rfl rfl
    (by decide) (by decide) (by decide)

/-- Application of `deriveNodeId_inj_on_clean` at a concrete clean path. -/
theorem deriveNodeId_inj_on_clean_witness : (['l', 'i', 'b', '/', 'f'] : List Char)
    = ['l', 'i', 'b', '/', 'f'] :=
  deriveNodeId_inj_on_clean ['l', 'i', 'b', '/', 'f'] ['l', 'i', 'b', '/', 'f']
    (by decide) (by decide) rfl

/-- Application of `routes_sorted_on_plain_paths` at a concrete two-file
input with lowercase route paths. -/
theorem routes_sorted_on_plain_paths_witness :
    (analyzeRoutesCore [(["app", "api", "users", "route.ts"], "export function POST() \x7b\x7d"),
        (["app", "api", "auth", "route.ts"], "export function GET() \x7b\x7d")]).Sorted lexRouteLE
      ∧ (∀ a b : RouteInfo, lexRouteLE a b ∨ lexRouteLE b a)
      ∧ ∀ a b c : RouteInfo, lexRouteLE a b → lexRouteLE b c → lexRouteLE a c :=
  routes_sorted_on_plain_paths
    [(["app", "api", "users", "route.ts"], "export function POST() \x7b\x7d"),
     (["app", "api", "auth", "route.ts"], "export function GET() \x7b\x7d")]
    (by decide)

/-- Application of `lineCount_newlines_succ` at a concrete one-file input
and its produced component record. -/
theorem lineCount_newlines_succ_witness :
    ∃ f ∈ [((["A.tsx"] : List String), ("a\nb\nc" : String))],
      (mkComponentInfo ["A.tsx"] "a\nb\nc").path = String.intercalate "/" f.1 ∧
      (mkComponentInfo ["A.tsx"] "a\nb\nc").linesOfCode = f.2.data.count '\n' + 1 :=
  lineCount_newlines_succ [(["A.tsx"], "a\nb\nc")]
    (mkComponentInfo ["A.tsx"] "a\nb\nc") (by decide)

/-- Application of `directory_summary_consistent` at a concrete two-file
input sharing one directory. -/
theorem directory_summary_consistent_witness :
    (∀ d ∈ (analyzeComponentsCore [(["ui", "A.tsx"], "a"), (["ui", "B.tsx"], "b")]).2,
        d.componentCount = ((analyzeComponentsCore
          [(["ui", "A.tsx"], "a"), (["ui", "B.tsx"], "b")]).1.filter
          (fun c => c.directory = d.path)).length)
    ∧ ∀ c ∈ (analyzeComponentsCore [(["ui", "A.tsx"], "a"), (["ui", "B.tsx"], "b")]).1,
        ((analyzeComponentsCore [(["ui", "A.tsx"], "a"), (["ui", "B.tsx"], "b")]).2.filter
          (fun d => d.path = c.directory)).length = 1 :=
  directory_summary_consistent [(["ui", "A.tsx"], "a"), (["ui", "B.tsx"], "b")]

end CodeVisualizer
